import Mathlib

/-!
Verification of the DiningSim concurrency engine (simulation.cpp / simulation.h).

The development shallowly embeds the data model and the operations of the
`Simulation` class: the fork-assignment mapping, the competitor computation,
the simplified Banker safety check `is_safe_state`, the admission controller
`request_permission`, the wait-for-graph deadlock detector `detect_deadlock`,
the allocation graph `get_resource_graph`, the bounded event log `log_event`,
and the constructor.  Machine integers are modelled as `Nat`/`Int` (all the
quantities involved are small and non-overflowing), fork holder fields as
`Int` with `-1` meaning "no holder", and the unbounded `while` loops of the
source as fuelled recursions returning `Option` (`none` = fuel exhausted),
with the fuel bounds proved sufficient.
-/

namespace DiningSim

/-- Philosopher states, from `enum class State` in simulation.h. -/
inductive PState where
  | thinking
  | hungry
  | eating
deriving DecidableEq, Repr

/-- Allocation strategies, from `enum class Strategy` in simulation.h. -/
inductive Strategy where
  | none
  | banker
deriving DecidableEq, Repr

/-- `STARVATION_THRESHOLD` constant from simulation.h (line 61). -/
def STARVATION_THRESHOLD : Nat := 10

/-- Left fork of agent `i` as computed by the constructor lambda `get_forks`
(simulation.cpp line 40): `(static_cast<long long>(id) * n_forks) / n_phil`.
All operands are non-negative, so C++ integer division is `Nat` division. -/
def ctorLeft (nPhil nForks i : Nat) : Nat := i * nForks / nPhil

/-- Right fork of agent `i` as computed by the constructor lambda `get_forks`
(simulation.cpp line 41): `(l + 1) % n_forks`. -/
def ctorRight (nPhil nForks i : Nat) : Nat := (ctorLeft nPhil nForks i + 1) % nForks

/-- Left fork as computed at the top of `philosopher_thread` (simulation.cpp line 219). -/
def threadLeft (nPhil nForks i : Nat) : Nat := i * nForks / nPhil

/-- Right fork as computed at the top of `philosopher_thread` (simulation.cpp line 220). -/
def threadRight (nPhil nForks i : Nat) : Nat := (threadLeft nPhil nForks i + 1) % nForks

/-- Left fork as computed inside the scan loop of `is_safe_state` (simulation.cpp line 162). -/
def safetyLeft (nPhil nForks i : Nat) : Nat := i * nForks / nPhil

/-- Right fork as computed inside the scan loop of `is_safe_state` (simulation.cpp line 163). -/
def safetyRight (nPhil nForks i : Nat) : Nat := (safetyLeft nPhil nForks i + 1) % nForks

/-- Left fork as computed inside `detect_deadlock` (simulation.cpp line 324). -/
def ddLeft (nPhil nForks i : Nat) : Nat := i * nForks / nPhil

/-- Right fork as computed inside `detect_deadlock` (simulation.cpp line 325). -/
def ddRight (nPhil nForks i : Nat) : Nat := (ddLeft nPhil nForks i + 1) % nForks

/-- Left fork as computed inside `get_resource_graph` (simulation.cpp line 357). -/
def graphLeft (nPhil nForks i : Nat) : Nat := i * nForks / nPhil

/-- Right fork as computed inside `get_resource_graph` (simulation.cpp line 358). -/
def graphRight (nPhil nForks i : Nat) : Nat := (graphLeft nPhil nForks i + 1) % nForks

/-- Competitor list of agent `i`, from the constructor loop (simulation.cpp
lines 45-54): every other agent `j` sharing at least one fork with `i`,
collected in increasing order of `j`. -/
def competitorsOf (nPhil nForks i : Nat) : List Nat :=
  (List.range nPhil).filter (fun j =>
    (j != i) &&
    ((ctorLeft nPhil nForks i == ctorLeft nPhil nForks j) ||
     (ctorLeft nPhil nForks i == ctorRight nPhil nForks j) ||
     (ctorRight nPhil nForks i == ctorLeft nPhil nForks j) ||
     (ctorRight nPhil nForks i == ctorRight nPhil nForks j)))

/-- The initial `available`/`need` vectors of `is_safe_state` (simulation.cpp
lines 129-139): `available` starts all 1 (`true`), `need` starts all 2; one
pass over the forks marks each held fork unavailable and decrements the
holder's need. -/
def initAvailNeed (nPhil nForks : Nat) (holders : List Int) : List Bool × List Int :=
  (List.range nForks).foldl
    (fun (p : List Bool × List Int) i =>
      if holders.getD i (-1) != -1 then
        (p.1.set i false,
         p.2.set (holders.getD i (-1)).toNat (p.2.getD (holders.getD i (-1)).toNat 0 - 1))
      else p)
    (List.replicate nForks true, List.replicate nPhil 2)

/-- The same fold as `initAvailNeed` restricted to the first `k` forks,
used to reason about the fork loop of simulation.cpp lines 132-139 by
induction on the processed prefix. -/
def initANUpTo (nPhil nForks : Nat) (holders : List Int) (k : Nat) : List Bool × List Int :=
  (List.range k).foldl
    (fun (p : List Bool × List Int) i =>
      if holders.getD i (-1) != -1 then
        (p.1.set i false,
         p.2.set (holders.getD i (-1)).toNat (p.2.getD (holders.getD i (-1)).toNat 0 - 1))
      else p)
    (List.replicate nForks true, List.replicate nPhil 2)

/-- State of the completion-simulation loop of `is_safe_state`:
the `available` vector, the `finish` vector and the `finished_count`
counter (simulation.cpp lines 129, 148-149). -/
structure BankerState where
  avail : List Bool
  finish : List Bool
  finishedCount : Nat
deriving DecidableEq, Repr

/-- The C++ `left_ok` condition of `is_safe_state` (simulation.cpp lines
166-167): held by `i`, or available, or the just-granted fork for the
requester (`bool ok = X || Y; if (cond) ok = true;` is `X || Y || cond`). -/
def leftOkB (nPhil nForks : Nat) (holders : List Int) (avail : List Bool) (a r i : Nat) : Bool :=
  (holders.getD (safetyLeft nPhil nForks i) (-1) == Int.ofNat i) ||
  avail.getD (safetyLeft nPhil nForks i) false ||
  (i == a && safetyLeft nPhil nForks i == r)

/-- The C++ `right_ok` condition of `is_safe_state` (simulation.cpp lines 169-170). -/
def rightOkB (nPhil nForks : Nat) (holders : List Int) (avail : List Bool) (a r i : Nat) : Bool :=
  (holders.getD (safetyRight nPhil nForks i) (-1) == Int.ofNat i) ||
  avail.getD (safetyRight nPhil nForks i) false ||
  (i == a && safetyRight nPhil nForks i == r)

/-- simulation.cpp line 177: `if (forks[left]->holder == i) available[left] = 1;` -/
def relStep1 (nPhil nForks : Nat) (holders : List Int) (i : Nat) (avail : List Bool) :
    List Bool :=
  if holders.getD (safetyLeft nPhil nForks i) (-1) == Int.ofNat i then
    avail.set (safetyLeft nPhil nForks i) true
  else avail

/-- simulation.cpp line 178: `if (forks[right]->holder == i) available[right] = 1;` -/
def relStep2 (nPhil nForks : Nat) (holders : List Int) (i : Nat) (avail : List Bool) :
    List Bool :=
  if holders.getD (safetyRight nPhil nForks i) (-1) == Int.ofNat i then
    avail.set (safetyRight nPhil nForks i) true
  else avail

/-- simulation.cpp line 179: `if (i == phil_id && left == fork_id) available[left] = 1;` -/
def relStep3 (nPhil nForks a r i : Nat) (avail : List Bool) : List Bool :=
  if i == a && safetyLeft nPhil nForks i == r then
    avail.set (safetyLeft nPhil nForks i) true
  else avail

/-- simulation.cpp line 180: `if (i == phil_id && right == fork_id) available[right] = 1;` -/
def relStep4 (nPhil nForks a r i : Nat) (avail : List Bool) : List Bool :=
  if i == a && safetyRight nPhil nForks i == r then
    avail.set (safetyRight nPhil nForks i) true
  else avail

/-- The availability updates performed when agent `i` finishes through the
obtainable branch of `is_safe_state` (simulation.cpp lines 177-180): mark
available its left and right forks when it holds them, and the granted fork
when it is the requester. -/
def codeRelease (nPhil nForks : Nat) (holders : List Int) (a r : Nat) (avail : List Bool)
    (i : Nat) : List Bool :=
  relStep4 nPhil nForks a r i
    (relStep3 nPhil nForks a r i
      (relStep2 nPhil nForks holders i
        (relStep1 nPhil nForks holders i avail)))

/-- Body of the inner `for` loop of `is_safe_state` for a single agent `i`
(simulation.cpp lines 154-183).  The accumulator pairs the loop state with
the `found` flag. -/
def scanStep (nPhil nForks : Nat) (holders : List Int) (a r : Nat) (need : List Int)
    (p : BankerState × Bool) (i : Nat) : BankerState × Bool :=
  if p.1.finish.getD i false then p
  else if need.getD i 0 ≤ 0 then
    (⟨p.1.avail, p.1.finish.set i true, p.1.finishedCount + 1⟩, true)
  else if leftOkB nPhil nForks holders p.1.avail a r i &&
      rightOkB nPhil nForks holders p.1.avail a r i then
    (⟨codeRelease nPhil nForks holders a r p.1.avail i,
      p.1.finish.set i true, p.1.finishedCount + 1⟩, true)
  else p

/-- One full pass of the inner `for` loop of `is_safe_state` over all agents
in id order, starting with `found = false` (simulation.cpp lines 153-184). -/
def scanOnce (nPhil nForks : Nat) (holders : List Int) (a r : Nat) (need : List Int)
    (st : BankerState) : BankerState × Bool :=
  (List.range nPhil).foldl (scanStep nPhil nForks holders a r need) (st, false)

/-- The outer `while (finished_count < num_philosophers)` loop of
`is_safe_state` (simulation.cpp lines 152-187), fuelled; `none` means the
fuel ran out (shown impossible for fuel `nPhil + 1` below). -/
def safeLoop (nPhil nForks : Nat) (holders : List Int) (a r : Nat) (need : List Int) :
    Nat → BankerState → Option Bool
  | 0, _ => none
  | fuel + 1, st =>
    if st.finishedCount < nPhil then
      if (scanOnce nPhil nForks holders a r need st).2 then
        safeLoop nPhil nForks holders a r need fuel (scanOnce nPhil nForks holders a r need st).1
      else some false
    else some true

/-- `Simulation::is_safe_state` (simulation.cpp lines 123-189), with the
outer loop fuelled: derive `available`/`need` from the holders, reject if the
requested fork is unavailable, simulate the grant, then run the completion
scan loop. -/
def is_safe_stateO (nPhil nForks : Nat) (holders : List Int) (a r : Nat) : Option Bool :=
  if (initAvailNeed nPhil nForks holders).1.getD r false = false then some false
  else
    safeLoop nPhil nForks holders a r
      ((initAvailNeed nPhil nForks holders).2.set a
        ((initAvailNeed nPhil nForks holders).2.getD a 0 - 1))
      (nPhil + 1)
      ⟨(initAvailNeed nPhil nForks holders).1.set r false, List.replicate nPhil false, 0⟩

/-- `Simulation::is_safe_state` as a Bool; the `.getD false` default is never
exercised (the fuel `nPhil + 1` always suffices, see `is_safe_stateO_ne_none`). -/
def is_safe_state (nPhil nForks : Nat) (holders : List Int) (a r : Nat) : Bool :=
  (is_safe_stateO nPhil nForks holders a r).getD false

/-- `Simulation::request_permission` (simulation.cpp lines 191-215):
deny if the fork is held; deny if some competitor is HUNGRY, past the
starvation threshold and more starved than the requester; otherwise grant
under strategy NONE and defer to `is_safe_state` under BANKER. -/
def request_permission (nPhil nForks : Nat) (holders : List Int) (states : List PState)
    (waits : List Nat) (strat : Strategy) (a r : Nat) : Bool :=
  if holders.getD r (-1) != -1 then false
  else if (competitorsOf nPhil nForks a).any (fun c =>
      (states.getD c .thinking == .hungry) &&
      decide (STARVATION_THRESHOLD < waits.getD c 0) &&
      decide (waits.getD a 0 < waits.getD c 0)) then false
  else
    match strat with
    | .banker => is_safe_state nPhil nForks holders a r
    | .none => true

/-! ### Reference Banker simulation, modelled from the spec (section 4.4)

These definitions follow the spec's words, to be compared with the embedding
of `is_safe_state` above: `available[r] = 1` iff resource `r` currently has
no holder; `need[a] = 2` minus the count of resources `a` currently holds;
on every finish (including the `need ≤ 0` case) all resources that agent
held are marked available for later agents in the same pass. -/

/-- Spec (section 3): left resource `L(i) = floor(i * num_resources / num_agents)`. -/
def specLeftFork (nPhil nForks i : Nat) : Nat := i * nForks / nPhil

/-- Spec (section 3): right resource `R(i) = (L(i) + 1) mod num_resources`. -/
def specRightFork (nPhil nForks i : Nat) : Nat := (specLeftFork nPhil nForks i + 1) % nForks

/-- Spec: `available[r] = 1` iff resource `r` currently has no holder, for
all resources `r`. -/
def availSpec (nForks : Nat) (holders : List Int) : List Bool :=
  (List.range nForks).map (fun f => holders.getD f (-1) == -1)

/-- Spec: `need[a] = 2` minus the count of resources agent `a` currently
holds. -/
def needSpec (nPhil nForks : Nat) (holders : List Int) : List Int :=
  (List.range nPhil).map (fun j =>
    2 - Int.ofNat ((List.range nForks).countP (fun f => holders.getD f (-1) == Int.ofNat j)))

/-- Spec: a resource is obtainable for agent `i` if already held by `i`, or
currently available, or it is the just-simulated-granted resource for the
requesting agent `a`. -/
def obtainable (holders : List Int) (avail : List Bool) (a r i f : Nat) : Bool :=
  (holders.getD f (-1) == Int.ofNat i) || avail.getD f false || (i == a && f == r)

/-- Spec: on finishing, simulate releasing any resources the agent held
(mark them available). -/
def releaseHeld (nForks : Nat) (holders : List Int) (avail : List Bool) (i : Nat) : List Bool :=
  (List.range nForks).foldl
    (fun av f => if holders.getD f (-1) == Int.ofNat i then av.set f true else av) avail

/-- Spec reference scan, one agent: finish if remaining need is `≤ 0` or both
left and right are obtainable; on every finish release everything held.
The accumulator is the pair (finish vector, available vector). -/
def specScanStep (nPhil nForks : Nat) (holders : List Int) (a r : Nat) (need : List Int)
    (q : List Bool × List Bool) (i : Nat) : List Bool × List Bool :=
  if q.1.getD i false then q
  else if need.getD i 0 ≤ 0 then (q.1.set i true, releaseHeld nForks holders q.2 i)
  else if obtainable holders q.2 a r i (specLeftFork nPhil nForks i) &&
      obtainable holders q.2 a r i (specRightFork nPhil nForks i) then
    (q.1.set i true, releaseHeld nForks holders q.2 i)
  else q

/-- Spec reference: one full pass over the agents in id order. -/
def specScan (nPhil nForks : Nat) (holders : List Int) (a r : Nat) (need : List Int)
    (q : List Bool × List Bool) : List Bool × List Bool :=
  (List.range nPhil).foldl (specScanStep nPhil nForks holders a r need) q

/-- Spec reference completion loop: safe (true) iff all agents finish, unsafe
(false) as soon as a full pass produces no new finisher. -/
def specLoop (nPhil nForks : Nat) (holders : List Int) (a r : Nat) (need : List Int) :
    Nat → List Bool × List Bool → Option Bool
  | 0, _ => none
  | fuel + 1, q =>
    if q.1.all (fun b => b) then some true
    else
      if (specScan nPhil nForks holders a r need q).1 == q.1 then some false
      else specLoop nPhil nForks holders a r need fuel (specScan nPhil nForks holders a r need q)

/-- The spec's reference Banker completion simulation (section 4.4, quoted in
claim C1): derive available/need from current holders, reject immediately if
the requested resource is unavailable, simulate the grant, then run the
completion scan with full release on every finish. -/
def is_safe_specO (nPhil nForks : Nat) (holders : List Int) (a r : Nat) : Option Bool :=
  if (availSpec nForks holders).getD r false = false then some false
  else
    specLoop nPhil nForks holders a r
      ((needSpec nPhil nForks holders).set a ((needSpec nPhil nForks holders).getD a 0 - 1))
      (nPhil + 1)
      (List.replicate nPhil false, (availSpec nForks holders).set r false)

/-- Boolean version of the spec's reference simulation. -/
def is_safe_spec (nPhil nForks : Nat) (holders : List Int) (a r : Nat) : Bool :=
  (is_safe_specO nPhil nForks holders a r).getD false

/-! ### Amended reference simulation

Identical to the spec's reference except in what a finishing agent releases:
a `need ≤ 0` finish releases nothing, and an obtainable-branch finish marks
available only the finisher's left and right resources when it holds them,
plus the granted resource when the finisher is the requester.  This is the
release discipline the code actually implements. -/

/-- Amended reference release: mark available the finisher's left and right
resources when held by it, and the granted resource when it is the requester. -/
def releaseAmend (nPhil nForks : Nat) (holders : List Int) (a r : Nat) (avail : List Bool)
    (i : Nat) : List Bool :=
  let left := specLeftFork nPhil nForks i
  let right := specRightFork nPhil nForks i
  let av1 := if holders.getD left (-1) == Int.ofNat i then avail.set left true else avail
  let av2 := if holders.getD right (-1) == Int.ofNat i then av1.set right true else av1
  let av3 := if i == a && left == r then av2.set left true else av2
  if i == a && right == r then av3.set right true else av3

/-- Amended reference scan, one agent. -/
def amendScanStep (nPhil nForks : Nat) (holders : List Int) (a r : Nat) (need : List Int)
    (q : List Bool × List Bool) (i : Nat) : List Bool × List Bool :=
  if q.1.getD i false then q
  else if need.getD i 0 ≤ 0 then (q.1.set i true, q.2)
  else if obtainable holders q.2 a r i (specLeftFork nPhil nForks i) &&
      obtainable holders q.2 a r i (specRightFork nPhil nForks i) then
    (q.1.set i true, releaseAmend nPhil nForks holders a r q.2 i)
  else q

/-- Amended reference: one full pass over the agents in id order. -/
def amendScan (nPhil nForks : Nat) (holders : List Int) (a r : Nat) (need : List Int)
    (q : List Bool × List Bool) : List Bool × List Bool :=
  (List.range nPhil).foldl (amendScanStep nPhil nForks holders a r need) q

/-- Amended reference completion loop. -/
def amendLoop (nPhil nForks : Nat) (holders : List Int) (a r : Nat) (need : List Int) :
    Nat → List Bool × List Bool → Option Bool
  | 0, _ => none
  | fuel + 1, q =>
    if q.1.all (fun b => b) then some true
    else
      if (amendScan nPhil nForks holders a r need q).1 == q.1 then some false
      else amendLoop nPhil nForks holders a r need fuel (amendScan nPhil nForks holders a r need q)

/-- The amended reference simulation. -/
def is_safe_amendedO (nPhil nForks : Nat) (holders : List Int) (a r : Nat) : Option Bool :=
  if (availSpec nForks holders).getD r false = false then some false
  else
    amendLoop nPhil nForks holders a r
      ((needSpec nPhil nForks holders).set a ((needSpec nPhil nForks holders).getD a 0 - 1))
      (nPhil + 1)
      (List.replicate nPhil false, (availSpec nForks holders).set r false)

/-- Boolean version of the amended reference simulation. -/
def is_safe_amended (nPhil nForks : Nat) (holders : List Int) (a r : Nat) : Bool :=
  (is_safe_amendedO nPhil nForks holders a r).getD false

/-! ### Deadlock detection -/

/-- The wait-for map of `detect_deadlock` (simulation.cpp lines 321-334):
for each HUNGRY agent `i`, if it does not hold its left fork and that fork is
held by someone, it waits for that holder; else if it holds its left fork and
its right fork is held by somebody else, it waits for the right holder.
The C++ `std::map<int,int>` is modelled as a partial function. -/
def waiting_for (nPhil nForks : Nat) (states : List PState) (holders : List Int)
    (i : Nat) : Option Nat :=
  if i < nPhil then
    if states.getD i .thinking = .hungry then
      if holders.getD (ddLeft nPhil nForks i) (-1) ≠ Int.ofNat i ∧
          holders.getD (ddLeft nPhil nForks i) (-1) ≠ -1 then
        some (holders.getD (ddLeft nPhil nForks i) (-1)).toNat
      else if holders.getD (ddLeft nPhil nForks i) (-1) = Int.ofNat i ∧
          holders.getD (ddRight nPhil nForks i) (-1) ≠ -1 ∧
          holders.getD (ddRight nPhil nForks i) (-1) ≠ Int.ofNat i then
        some (holders.getD (ddRight nPhil nForks i) (-1)).toNat
      else none
    else none
  else none

/-- The chain walk of `detect_deadlock` (simulation.cpp lines 337-347):
follow the wait-for map from `curr`, pushing each visited node; report a
cycle when the next node is already in the visited list.  Fuelled; fuel
`nPhil + 1` is enough because the visited list stays duplicate-free. -/
def ddWalk (wf : Nat → Option Nat) : Nat → Nat → List Nat → Bool
  | 0, _, _ => false
  | fuel + 1, curr, visited =>
    match wf curr with
    | Option.none => false
    | Option.some nxt =>
      if nxt ∈ visited ++ [curr] then true else ddWalk wf fuel nxt (visited ++ [curr])

/-- `Simulation::detect_deadlock` (simulation.cpp lines 318-349): build the
wait-for map and walk chains from every mapped start node. -/
def detect_deadlock (nPhil nForks : Nat) (states : List PState) (holders : List Int) : Bool :=
  let wf := waiting_for nPhil nForks states holders
  ((List.range nPhil).filter (fun i => (wf i).isSome)).any
    (fun start => ddWalk wf (nPhil + 1) start [])

/-- Iterate a partial successor function `k` times. -/
def iterO (wf : Nat → Option Nat) : Nat → Nat → Option Nat
  | 0, x => some x
  | k + 1, x => (wf x).bind (iterO wf k)

/-- A wait-for map on nodes `< nPhil` contains a cycle: some node chains back
to itself in at most `nPhil` steps.  In a functional graph this is exactly
"some chain from a mapped node revisits a node", the spec's criterion. -/
def HasCycleF (nPhil : Nat) (wf : Nat → Option Nat) : Prop :=
  ∃ x < nPhil, ∃ k < nPhil, iterO wf (k + 1) x = some x

/-! ### Allocation graph -/

/-- `Simulation::get_resource_graph` (simulation.cpp lines 351-374): the
ordered `{philosopher, resource, holding_flag}` triples. -/
def get_resource_graph (nPhil nForks : Nat) (states : List PState) (holders : List Int) :
    List (List Int) :=
  (List.range nPhil).foldl
    (fun edges i =>
      if states.getD i .thinking = .eating then
        edges ++ [[Int.ofNat i, Int.ofNat (graphLeft nPhil nForks i), 1],
          [Int.ofNat i, Int.ofNat (graphRight nPhil nForks i), 1]]
      else if states.getD i .thinking = .hungry then
        if holders.getD (graphLeft nPhil nForks i) (-1) = Int.ofNat i then
          edges ++ [[Int.ofNat i, Int.ofNat (graphLeft nPhil nForks i), 1],
            [Int.ofNat i, Int.ofNat (graphRight nPhil nForks i), 0]]
        else
          edges ++ [[Int.ofNat i, Int.ofNat (graphLeft nPhil nForks i), 0]]
      else edges)
    []

/-- The triples a single agent contributes to the resource graph, as
described by the spec (section 4.5, quoted in claim C6). -/
def graphEntry (nPhil nForks : Nat) (states : List PState) (holders : List Int) (i : Nat) :
    List (List Int) :=
  if states.getD i .thinking = .eating then
    [[Int.ofNat i, Int.ofNat (graphLeft nPhil nForks i), 1],
     [Int.ofNat i, Int.ofNat (graphRight nPhil nForks i), 1]]
  else if states.getD i .thinking = .hungry then
    if holders.getD (graphLeft nPhil nForks i) (-1) = Int.ofNat i then
      [[Int.ofNat i, Int.ofNat (graphLeft nPhil nForks i), 1],
       [Int.ofNat i, Int.ofNat (graphRight nPhil nForks i), 0]]
    else
      [[Int.ofNat i, Int.ofNat (graphLeft nPhil nForks i), 0]]
  else []

/-! ### Event log -/

/-- An event record, from `struct SimEvent` in simulation.h.  The timestamp
is modelled as an integer tick supplied by the caller (the C++ reads a wall
clock, which is an external input). -/
structure SimEvent where
  timestamp : Int
  phil_id : Int
  event_type : String
  details : String
deriving DecidableEq, Repr

/-- `Simulation::log_event` (simulation.cpp lines 105-113) acting on the
event queue: append, then drop the oldest entry if the size exceeds 5000. -/
def log_event (q : List SimEvent) (e : SimEvent) : List SimEvent :=
  if 5000 < (q ++ [e]).length then (q ++ [e]).tail else q ++ [e]

/-! ### Constructor -/

/-- The member state a freshly constructed `Simulation` object carries
(simulation.cpp lines 22-55 together with the member initialisers and
`Fork() : holder(-1)` from simulation.h). -/
structure SimInit where
  num_philosophers : Nat
  num_forks : Nat
  running : Bool
  current_strategy : Strategy
  states : List PState
  wait_counts : List Nat
  eat_counts : List Nat
  max_wait_counts : List Nat
  holders : List Int
  competitors : List (List Nat)
deriving DecidableEq, Repr

/-- `Simulation::Simulation` (simulation.cpp lines 22-55).  The constructor
performs no validation of the counts whatsoever: it unconditionally builds
the vectors, the forks and the competitor lists.  (Fields in declaration
order: counts, running=false, strategy=NONE, states, wait/eat/max-wait
counts, fork holders, competitors.) -/
def simulation_ctor (nPhil nForks : Nat) : SimInit :=
  ⟨nPhil, nForks, false, Strategy.none,
    List.replicate nPhil .thinking,
    List.replicate nPhil 0,
    List.replicate nPhil 0,
    List.replicate nPhil 0,
    List.replicate nForks (-1),
    (List.range nPhil).map (competitorsOf nPhil nForks)⟩

/-! ### Full shared state and the permission query as a state transformer -/

/-- The complete mutable shared state of a `Simulation` (simulation.h lines
46-64), for the frame/effect claim about `request_permission`. -/
structure FullState where
  nPhil : Nat
  nForks : Nat
  strategy : Strategy
  states : List PState
  waits : List Nat
  eats : List Nat
  maxWaits : List Nat
  holders : List Int
  events : List SimEvent
deriving DecidableEq, Repr

/-- `Simulation::request_permission` as a state transformer over the full
shared state, transcribed statement by statement: every C++ statement in
the function body (lines 191-215) is a read, so each branch returns the
state it received. -/
def request_permission_op (a r : Nat) (s : FullState) : Bool × FullState :=
  if s.holders.getD r (-1) != -1 then (false, s)
  else if (competitorsOf s.nPhil s.nForks a).any (fun c =>
      (s.states.getD c .thinking == .hungry) &&
      decide (STARVATION_THRESHOLD < s.waits.getD c 0) &&
      decide (s.waits.getD a 0 < s.waits.getD c 0)) then (false, s)
  else
    match s.strategy with
    | .banker => (is_safe_state s.nPhil s.nForks s.holders a r, s)
    | .none => (true, s)

/-! ### The acquisition protocol as a step relation

`Phase` tracks where an agent stands in the `philosopher_thread` loop
(simulation.cpp lines 217-316).  In the racy relation `RStep`, asking for
permission and the subsequent `try_lock` are separate atomic steps, exactly
as in the code, where `state_mutex` is released between the two; `permL` and
`permR` are the windows in which a granted permission may go stale.  The
strategy is fixed to BANKER throughout, matching the claim's premise. -/
inductive Phase where
  | thinking
  | hungryIdle
  | permL
  | holdL
  | permR
  | eating
  | releasedR
deriving DecidableEq, Repr

/-- The `State` value the shared `states` array shows for a phase. -/
def phaseState : Phase → PState
  | .thinking => .thinking
  | .hungryIdle => .hungry
  | .permL => .hungry
  | .holdL => .hungry
  | .permR => .hungry
  | .eating => .eating
  | .releasedR => .eating

/-- Joint state of the simulation for the step-relation claims: phases of
all agents, fork holders and wait counters. -/
structure CState where
  nPhil : Nat
  nForks : Nat
  phases : List Phase
  holders : List Int
  waits : List Nat
deriving DecidableEq, Repr

/-- The shared `states` array derived from the phases. -/
def statesOf (s : CState) : List PState := s.phases.map phaseState

/-- `request_permission` under strategy BANKER evaluated on a joint state. -/
def rpOf (s : CState) (a r : Nat) : Bool :=
  request_permission s.nPhil s.nForks s.holders (statesOf s) s.waits .banker a r

/-- `detect_deadlock` evaluated on a joint state. -/
def ddOf (s : CState) : Bool :=
  detect_deadlock s.nPhil s.nForks (statesOf s) s.holders

/-- Left fork of agent `i` in a joint state. -/
def lf (s : CState) (i : Nat) : Nat := threadLeft s.nPhil s.nForks i

/-- Right fork of agent `i` in a joint state. -/
def rf (s : CState) (i : Nat) : Nat := threadRight s.nPhil s.nForks i

/-- The racy step relation: the acquisition protocol of `philosopher_thread`
with permission checks and lock attempts as separate steps. -/
inductive RStep : CState → CState → Prop where
  | toHungry (s : CState) (i : Nat) :
      i < s.nPhil →
      s.phases.getD i .thinking = .thinking →
      RStep s ⟨s.nPhil, s.nForks, s.phases.set i .hungryIdle, s.holders, s.waits.set i 0⟩
  | permLeft (s : CState) (i : Nat) :
      s.phases.getD i .thinking = .hungryIdle →
      rpOf s i (lf s i) = true →
      RStep s ⟨s.nPhil, s.nForks, s.phases.set i .permL, s.holders, s.waits⟩
  | permLeftDenied (s : CState) (i : Nat) :
      s.phases.getD i .thinking = .hungryIdle →
      rpOf s i (lf s i) = false →
      RStep s ⟨s.nPhil, s.nForks, s.phases, s.holders, s.waits.set i (s.waits.getD i 0 + 1)⟩
  | lockLeft (s : CState) (i : Nat) :
      s.phases.getD i .thinking = .permL →
      s.holders.getD (lf s i) (-1) = -1 →
      RStep s ⟨s.nPhil, s.nForks, s.phases.set i .holdL,
        s.holders.set (lf s i) (Int.ofNat i), s.waits⟩
  | lockLeftFailed (s : CState) (i : Nat) :
      s.phases.getD i .thinking = .permL →
      s.holders.getD (lf s i) (-1) ≠ -1 →
      RStep s ⟨s.nPhil, s.nForks, s.phases.set i .hungryIdle, s.holders,
        s.waits.set i (s.waits.getD i 0 + 1)⟩
  | permRight (s : CState) (i : Nat) :
      s.phases.getD i .thinking = .holdL →
      rpOf s i (rf s i) = true →
      RStep s ⟨s.nPhil, s.nForks, s.phases.set i .permR, s.holders, s.waits⟩
  | permRightDenied (s : CState) (i : Nat) :
      s.phases.getD i .thinking = .holdL →
      rpOf s i (rf s i) = false →
      RStep s ⟨s.nPhil, s.nForks, s.phases.set i .hungryIdle,
        s.holders.set (lf s i) (-1), s.waits.set i (s.waits.getD i 0 + 1)⟩
  | lockRight (s : CState) (i : Nat) :
      s.phases.getD i .thinking = .permR →
      s.holders.getD (rf s i) (-1) = -1 →
      RStep s ⟨s.nPhil, s.nForks, s.phases.set i .eating,
        s.holders.set (rf s i) (Int.ofNat i), s.waits.set i 0⟩
  | lockRightFailed (s : CState) (i : Nat) :
      s.phases.getD i .thinking = .permR →
      s.holders.getD (rf s i) (-1) ≠ -1 →
      RStep s ⟨s.nPhil, s.nForks, s.phases.set i .hungryIdle,
        s.holders.set (lf s i) (-1), s.waits.set i (s.waits.getD i 0 + 1)⟩
  | releaseRight (s : CState) (i : Nat) :
      s.phases.getD i .thinking = .eating →
      RStep s ⟨s.nPhil, s.nForks, s.phases.set i .releasedR,
        s.holders.set (rf s i) (-1), s.waits⟩
  | releaseLeft (s : CState) (i : Nat) :
      s.phases.getD i .thinking = .releasedR →
      RStep s ⟨s.nPhil, s.nForks, s.phases.set i .thinking,
        s.holders.set (lf s i) (-1), s.waits⟩

/-- The atomic-grant step relation: identical protocol, but a permission
check and the corresponding acquisition happen in one indivisible step, so
a grant can never go stale.  This is the restriction of `RStep` in which
`permL`/`permR` windows have zero length. -/
inductive AStep : CState → CState → Prop where
  | toHungry (s : CState) (i : Nat) :
      i < s.nPhil →
      s.phases.getD i .thinking = .thinking →
      AStep s ⟨s.nPhil, s.nForks, s.phases.set i .hungryIdle, s.holders, s.waits.set i 0⟩
  | acquireLeft (s : CState) (i : Nat) :
      s.phases.getD i .thinking = .hungryIdle →
      rpOf s i (lf s i) = true →
      AStep s ⟨s.nPhil, s.nForks, s.phases.set i .holdL,
        s.holders.set (lf s i) (Int.ofNat i), s.waits⟩
  | acquireLeftDenied (s : CState) (i : Nat) :
      s.phases.getD i .thinking = .hungryIdle →
      rpOf s i (lf s i) = false →
      AStep s ⟨s.nPhil, s.nForks, s.phases, s.holders, s.waits.set i (s.waits.getD i 0 + 1)⟩
  | acquireRight (s : CState) (i : Nat) :
      s.phases.getD i .thinking = .holdL →
      rpOf s i (rf s i) = true →
      AStep s ⟨s.nPhil, s.nForks, s.phases.set i .eating,
        s.holders.set (rf s i) (Int.ofNat i), s.waits.set i 0⟩
  | acquireRightDenied (s : CState) (i : Nat) :
      s.phases.getD i .thinking = .holdL →
      rpOf s i (rf s i) = false →
      AStep s ⟨s.nPhil, s.nForks, s.phases.set i .hungryIdle,
        s.holders.set (lf s i) (-1), s.waits.set i (s.waits.getD i 0 + 1)⟩
  | releaseRight (s : CState) (i : Nat) :
      s.phases.getD i .thinking = .eating →
      AStep s ⟨s.nPhil, s.nForks, s.phases.set i .releasedR,
        s.holders.set (rf s i) (-1), s.waits⟩
  | releaseLeft (s : CState) (i : Nat) :
      s.phases.getD i .thinking = .releasedR →
      AStep s ⟨s.nPhil, s.nForks, s.phases.set i .thinking,
        s.holders.set (lf s i) (-1), s.waits⟩

/-- The initial joint state: everyone THINKING, every fork free, wait
counters zero (the constructor's member initialisation). -/
def initCState (nPhil nForks : Nat) : CState :=
  ⟨nPhil, nForks, List.replicate nPhil .thinking, List.replicate nForks (-1),
    List.replicate nPhil 0⟩

/-- States reachable from start under the racy protocol with BANKER. -/
inductive ReachR : Nat → Nat → CState → Prop where
  | init (nPhil nForks : Nat) : ReachR nPhil nForks (initCState nPhil nForks)
  | step (nPhil nForks : Nat) (s t : CState) :
      ReachR nPhil nForks s → RStep s t → ReachR nPhil nForks t

/-- States reachable from start under the atomic-grant protocol with BANKER. -/
inductive ReachA : Nat → Nat → CState → Prop where
  | init (nPhil nForks : Nat) : ReachA nPhil nForks (initCState nPhil nForks)
  | step (nPhil nForks : Nat) (s t : CState) :
      ReachA nPhil nForks s → AStep s t → ReachA nPhil nForks t

/-- The phase of agent `i` in a joint state. -/
def phOf (s : CState) (i : Nat) : Phase := s.phases.getD i .thinking

/-- The holder entry of fork `f` in a joint state. -/
def holderOf (s : CState) (f : Nat) : Int := s.holders.getD f (-1)

/-- The wait-for map of a joint state. -/
def wfOf (s : CState) : Nat → Option Nat :=
  waiting_for s.nPhil s.nForks (statesOf s) s.holders

/-- The forks the protocol says agent `i` possesses in its current phase:
its left fork while in `holdL` or after releasing the right fork, both forks
while eating, nothing otherwise. -/
def ownsF (s : CState) (i f : Nat) : Prop :=
  (s.phases.getD i .thinking = .holdL ∧ f = lf s i) ∨
  (s.phases.getD i .thinking = .eating ∧ (f = lf s i ∨ f = rf s i)) ∨
  (s.phases.getD i .thinking = .releasedR ∧ f = lf s i)

/-- The protocol invariant: array lengths match the counts, every held fork
is held by an agent whose phase says it possesses that fork, every fork an
agent's phase says it possesses records that agent as holder, and an agent
that acquired both forks has two distinct forks. -/
def Inv (s : CState) : Prop :=
  s.phases.length = s.nPhil ∧
  s.holders.length = s.nForks ∧
  (∀ f, holderOf s f = -1 ∨
    ∃ i, i < s.nPhil ∧ holderOf s f = Int.ofNat i ∧ ownsF s i f) ∧
  (∀ i f, ownsF s i f → holderOf s f = Int.ofNat i) ∧
  (∀ i, (s.phases.getD i .thinking = .eating ∨ s.phases.getD i .thinking = .releasedR) →
    lf s i ≠ rf s i)

/-- Membership in the orbit of the cycle witness `x` of period `k + 1`. -/
def OrbitF (wf : Nat → Option Nat) (x k y : Nat) : Prop :=
  ∃ j, j ≤ k ∧ iterO wf j x = some y

/-! ## Generic list helpers -/

theorem getD_set_self {α : Type} (l : List α) (i : Nat) (x d : α) (h : i < l.length) :
    (l.set i x).getD i d = x := by
  rw [List.getD_eq_getD_get?, List.get?_eq_getElem?, List.getElem?_set_eq_of_lt _ h,
    Option.getD_some]

theorem getD_set_ne {α : Type} (l : List α) (i j : Nat) (x d : α) (h : i ≠ j) :
    (l.set i x).getD j d = l.getD j d := by
  rw [List.getD_eq_getD_get?, List.get?_eq_getElem?, List.getElem?_set_ne h,
    ← List.get?_eq_getElem?, ← List.getD_eq_getD_get?]

theorem getD_replicate {α : Type} (n i : Nat) (x d : α) (h : i < n) :
    (List.replicate n x).getD i d = x := by
  rw [List.getD_eq_getElem _ _ (by simpa using h)]
  simp

/-! ## C5: the fork mapping is computed identically at every site -/

/-- C5: for every agent `i`, the constructor's competitor computation, the
acquisition loop in `philosopher_thread`, the safety check `is_safe_state`,
`detect_deadlock` and `get_resource_graph` all compute the identical pair
`L(i) = floor(i * num_resources / num_agents)`,
`R(i) = (L(i) + 1) mod num_resources`. -/
theorem fork_mapping_consistent (nPhil nForks i : Nat) :
    ctorLeft nPhil nForks i = i * nForks / nPhil ∧
    ctorRight nPhil nForks i = (i * nForks / nPhil + 1) % nForks ∧
    threadLeft nPhil nForks i = ctorLeft nPhil nForks i ∧
    threadRight nPhil nForks i = ctorRight nPhil nForks i ∧
    safetyLeft nPhil nForks i = ctorLeft nPhil nForks i ∧
    safetyRight nPhil nForks i = ctorRight nPhil nForks i ∧
    ddLeft nPhil nForks i = ctorLeft nPhil nForks i ∧
    ddRight nPhil nForks i = ctorRight nPhil nForks i ∧
    graphLeft nPhil nForks i = ctorLeft nPhil nForks i ∧
    graphRight nPhil nForks i = ctorRight nPhil nForks i :=
  ⟨rfl, rfl, rfl, rfl, rfl, rfl, rfl, rfl, rfl, rfl⟩

/-! ## C7: the constructor performs no validation -/

/-- C7 (code bug evidence): constructing a `Simulation` with
`num_agents = 0` and `num_resources = 0` — both invalid per the spec —
does not fail: the constructor returns a normally initialised object with
empty agent and fork vectors.  No code path in
`Simulation::Simulation` checks the counts. -/
theorem ctor_accepts_invalid_counts :
    simulation_ctor 0 0 =
      ⟨0, 0, false, Strategy.none, [], [], [], [], [], []⟩ := rfl

/-! ## C8: the event queue is bounded at 5000 with FIFO eviction -/

theorem log_event_drop (es : List SimEvent) (e : SimEvent) :
    log_event (es.drop (es.length - 5000)) e =
      (es ++ [e]).drop ((es ++ [e]).length - 5000) := by
  unfold log_event
  rcases Nat.lt_or_ge es.length 5000 with h | h
  · have h0 : es.length - 5000 = 0 := by omega
    have h1 : (es ++ [e]).length - 5000 = 0 := by simp; omega
    rw [h0, h1, List.drop_zero, List.drop_zero]
    simp only [List.length_append, List.length_singleton]
    have : ¬ 5000 < es.length + 1 := by omega
    simp [this]
  · have hlen : (es.drop (es.length - 5000)).length = 5000 := by
      rw [List.length_drop]; omega
    have hcond : 5000 < (es.drop (es.length - 5000) ++ [e]).length := by
      rw [List.length_append, hlen]; simp
    simp only [hcond, if_true]
    have hne : es.drop (es.length - 5000) ≠ [] := by
      intro hnil; rw [hnil] at hlen; simp at hlen
    obtain ⟨hd, tl, heq⟩ := List.exists_cons_of_ne_nil hne
    have htl : (es.drop (es.length - 5000)).tail = es.drop (es.length - 5000 + 1) := by
      rw [List.tail_drop]
    rw [heq]
    have : (hd :: tl ++ [e]).tail = tl ++ [e] := rfl
    rw [this]
    have htl2 : tl = es.drop (es.length - 5000 + 1) := by
      rw [← htl, heq]; rfl
    rw [htl2]
    have harith : (es ++ [e]).length - 5000 = es.length - 5000 + 1 := by simp; omega
    rw [harith, List.drop_append_of_le_length (by omega)]

/-- C8: starting from the empty queue, after logging any sequence of events
the queue holds exactly the most recent 5000 of them in logging order
(FIFO eviction of the oldest), and in particular its size never exceeds
5000 after any call. -/
theorem log_event_bound (es : List SimEvent) :
    es.foldl log_event [] = es.drop (es.length - 5000) ∧
    (es.foldl log_event []).length ≤ 5000 := by
  have main : es.foldl log_event [] = es.drop (es.length - 5000) := by
    induction es using List.reverseRecOn with
    | nil => simp
    | append_singleton es e ih =>
      rw [List.foldl_append, List.foldl_cons, List.foldl_nil, ih, log_event_drop]
  refine ⟨main, ?_⟩
  rw [main, List.length_drop]
  omega

/-! ## C9: the completion loop of `is_safe_state` terminates -/

theorem scanStep_progress (nPhil nForks : Nat) (holders : List Int) (a r : Nat)
    (need : List Int) (p : BankerState × Bool) (i : Nat) :
    (scanStep nPhil nForks holders a r need p i = p) ∨
    ((scanStep nPhil nForks holders a r need p i).2 = true ∧
      (scanStep nPhil nForks holders a r need p i).1.finishedCount =
        p.1.finishedCount + 1) := by
  unfold scanStep
  split
  · exact Or.inl rfl
  · split
    · exact Or.inr ⟨rfl, rfl⟩
    · split
      · exact Or.inr ⟨rfl, rfl⟩
      · exact Or.inl rfl

theorem foldl_scanStep_progress (nPhil nForks : Nat) (holders : List Int) (a r : Nat)
    (need : List Int) (l : List Nat) (p : BankerState × Bool) :
    (l.foldl (scanStep nPhil nForks holders a r need) p = p) ∨
    ((l.foldl (scanStep nPhil nForks holders a r need) p).2 = true ∧
      p.1.finishedCount < (l.foldl (scanStep nPhil nForks holders a r need) p).1.finishedCount) := by
  induction l generalizing p with
  | nil => exact Or.inl rfl
  | cons x xs ih =>
    rw [List.foldl_cons]
    rcases scanStep_progress nPhil nForks holders a r need p x with h | ⟨h2, hc⟩
    · rw [h]; exact ih p
    · rcases ih (scanStep nPhil nForks holders a r need p x) with h | ⟨h2', hc'⟩
      · rw [h]; exact Or.inr ⟨h2, by omega⟩
      · exact Or.inr ⟨h2', by omega⟩

theorem scanOnce_progress (nPhil nForks : Nat) (holders : List Int) (a r : Nat)
    (need : List Int) (st : BankerState) :
    ((scanOnce nPhil nForks holders a r need st).2 = false ∧
      (scanOnce nPhil nForks holders a r need st).1 = st) ∨
    ((scanOnce nPhil nForks holders a r need st).2 = true ∧
      st.finishedCount < (scanOnce nPhil nForks holders a r need st).1.finishedCount) := by
  unfold scanOnce
  rcases foldl_scanStep_progress nPhil nForks holders a r need (List.range nPhil) (st, false)
    with h | ⟨h2, hc⟩
  · rw [h]; exact Or.inl ⟨rfl, rfl⟩
  · exact Or.inr ⟨h2, hc⟩

theorem safeLoop_ne_none (nPhil nForks : Nat) (holders : List Int) (a r : Nat)
    (need : List Int) (fuel : Nat) (st : BankerState)
    (h : nPhil - st.finishedCount < fuel) :
    safeLoop nPhil nForks holders a r need fuel st ≠ none := by
  induction fuel generalizing st with
  | zero => omega
  | succ f ih =>
    unfold safeLoop
    split
    · rcases scanOnce_progress nPhil nForks holders a r need st with ⟨h2, _⟩ | ⟨h2, hc⟩
      · rw [h2]; simp
      · rw [h2]
        simp only [if_true]
        apply ih
        omega
    · simp

/-- C9: `is_safe_state` terminates on every input: the fuelled embedding of
its outer `while` loop never exhausts the fuel bound `nPhil + 1`, because
every pass either marks at least one additional agent finished (and the
finished count is bounded by the agent count) or returns false immediately. -/
theorem is_safe_state_terminates (nPhil nForks : Nat) (holders : List Int) (a r : Nat) :
    is_safe_stateO nPhil nForks holders a r ≠ none := by
  unfold is_safe_stateO
  split
  · simp
  · exact safeLoop_ne_none nPhil nForks holders a r _ (nPhil + 1) _ (by simp)

/-! ## C2: characterisation of `request_permission` -/

theorem starvation_any_iff (nPhil nForks : Nat) (states : List PState) (waits : List Nat)
    (a : Nat) :
    ((competitorsOf nPhil nForks a).any (fun c =>
      (states.getD c .thinking == .hungry) &&
      decide (STARVATION_THRESHOLD < waits.getD c 0) &&
      decide (waits.getD a 0 < waits.getD c 0)) = true) ↔
    ∃ c ∈ competitorsOf nPhil nForks a, states.getD c .thinking = .hungry ∧
      STARVATION_THRESHOLD < waits.getD c 0 ∧ waits.getD a 0 < waits.getD c 0 := by
  rw [List.any_eq_true]
  constructor
  · rintro ⟨c, hc, hp⟩
    simp only [Bool.and_eq_true, beq_iff_eq, decide_eq_true_eq] at hp
    exact ⟨c, hc, hp.1.1, hp.1.2, hp.2⟩
  · rintro ⟨c, hc, h1, h2, h3⟩
    refine ⟨c, hc, ?_⟩
    simp only [Bool.and_eq_true, beq_iff_eq, decide_eq_true_eq]
    exact ⟨⟨h1, h2⟩, h3⟩

/-- C2: `request_permission(a, r)` returns false if resource `r` currently
has a holder; otherwise it returns false if some competitor of `a` is
HUNGRY with wait count above the starvation threshold (10) and strictly
greater than `a`'s wait count; otherwise it returns true under strategy
NONE and exactly `is_safe_state(a, r)` under strategy BANKER. -/
theorem request_permission_characterization
    (nPhil nForks : Nat) (holders : List Int) (states : List PState)
    (waits : List Nat) (strat : Strategy) (a r : Nat) :
    (holders.getD r (-1) ≠ -1 →
      request_permission nPhil nForks holders states waits strat a r = false) ∧
    (holders.getD r (-1) = -1 →
      (∃ c ∈ competitorsOf nPhil nForks a, states.getD c .thinking = .hungry ∧
        STARVATION_THRESHOLD < waits.getD c 0 ∧ waits.getD a 0 < waits.getD c 0) →
      request_permission nPhil nForks holders states waits strat a r = false) ∧
    (holders.getD r (-1) = -1 →
      (¬ ∃ c ∈ competitorsOf nPhil nForks a, states.getD c .thinking = .hungry ∧
        STARVATION_THRESHOLD < waits.getD c 0 ∧ waits.getD a 0 < waits.getD c 0) →
      (strat = .none →
        request_permission nPhil nForks holders states waits strat a r = true) ∧
      (strat = .banker →
        request_permission nPhil nForks holders states waits strat a r =
          is_safe_state nPhil nForks holders a r)) := by
  refine ⟨?_, ?_, ?_⟩
  · intro h
    have hb : (holders.getD r (-1) != -1) = true := bne_iff_ne.mpr h
    unfold request_permission
    rw [if_pos hb]
  · intro h hex
    have hb : ¬ ((holders.getD r (-1) != -1) = true) := by
      simp only [bne_iff_ne, ne_eq, not_not]
      exact h
    unfold request_permission
    rw [if_neg hb, if_pos ((starvation_any_iff nPhil nForks states waits a).mpr hex)]
  · intro h hnex
    have hb : ¬ ((holders.getD r (-1) != -1) = true) := by
      simp only [bne_iff_ne, ne_eq, not_not]
      exact h
    have hb2 : ¬ (((competitorsOf nPhil nForks a).any (fun c =>
        (states.getD c .thinking == .hungry) &&
        decide (STARVATION_THRESHOLD < waits.getD c 0) &&
        decide (waits.getD a 0 < waits.getD c 0))) = true) := by
      intro hc
      exact hnex ((starvation_any_iff nPhil nForks states waits a).mp hc)
    constructor
    · intro hs
      subst hs
      unfold request_permission
      rw [if_neg hb, if_neg hb2]
    · intro hs
      subst hs
      unfold request_permission
      rw [if_neg hb, if_neg hb2]

/-- Witness for C2: on an empty two-agent table with strategy BANKER, no
fork held and no starved competitor, the permission equals the safety check. -/
theorem request_permission_witness :
    request_permission 2 2 [-1, -1] [PState.hungry, PState.thinking] [0, 0]
      Strategy.banker 0 0 = is_safe_state 2 2 [-1, -1] 0 0 :=
  ((request_permission_characterization 2 2 [-1, -1] [PState.hungry, PState.thinking]
    [0, 0] Strategy.banker 0 0).2.2 rfl (by decide)).2 rfl

/-! ## C10: `request_permission` leaves the shared state unchanged -/

/-- C10: the permission query is read-only: on every input and every shared
state it returns the state it received — states, wait counts, eat counts,
max wait counts, fork holders, strategy and the event queue unchanged, on
grant and on denial alike — and its Boolean answer is the pure
`request_permission` function of that state. -/
theorem request_permission_readonly (a r : Nat) (s : FullState) :
    (request_permission_op a r s).2 = s ∧
    (request_permission_op a r s).1 =
      request_permission s.nPhil s.nForks s.holders s.states s.waits s.strategy a r := by
  rcases s with ⟨nP, nF, strat, sts, w, e, mw, hold, ev⟩
  cases strat <;>
    (unfold request_permission_op request_permission
     split
     · exact ⟨rfl, rfl⟩
     · split
       · exact ⟨rfl, rfl⟩
       · exact ⟨rfl, rfl⟩)

/-! ## C6: structure of the allocation graph -/

theorem foldl_append_eq_flatten {α β : Type} (g : β → List α) (f : List α → β → List α)
    (hf : ∀ es i, f es i = es ++ g i) (l : List β) (acc : List α) :
    l.foldl f acc = acc ++ (l.map g).flatten := by
  induction l generalizing acc with
  | nil => simp
  | cons x xs ih => simp [hf, ih, List.append_assoc]

theorem get_resource_graph_eq_flatten (nPhil nForks : Nat) (states : List PState)
    (holders : List Int) :
    get_resource_graph nPhil nForks states holders =
      ((List.range nPhil).map (graphEntry nPhil nForks states holders)).flatten := by
  unfold get_resource_graph
  rw [foldl_append_eq_flatten (graphEntry nPhil nForks states holders) _ ?_ (List.range nPhil) []]
  · simp
  · intro es i
    unfold graphEntry
    split_ifs <;> simp

/-- C6: `get_resource_graph` emits, in agent-id order, exactly the triples
described by the spec for each agent — both forks with flag 1 for an EATING
agent, left with 1 and right with 0 for a HUNGRY agent holding its left,
only left with 0 for a HUNGRY agent not holding its left, nothing for a
THINKING agent — and in particular an EATING agent has both its forks
reported with flag 1 in the same snapshot. -/
theorem get_resource_graph_spec (nPhil nForks : Nat) (states : List PState)
    (holders : List Int) :
    get_resource_graph nPhil nForks states holders =
      ((List.range nPhil).map (graphEntry nPhil nForks states holders)).flatten ∧
    ∀ i, i < nPhil → states.getD i .thinking = .eating →
      [Int.ofNat i, Int.ofNat (graphLeft nPhil nForks i), 1] ∈
        get_resource_graph nPhil nForks states holders ∧
      [Int.ofNat i, Int.ofNat (graphRight nPhil nForks i), 1] ∈
        get_resource_graph nPhil nForks states holders := by
  refine ⟨get_resource_graph_eq_flatten nPhil nForks states holders, ?_⟩
  intro i hi he
  rw [get_resource_graph_eq_flatten]
  constructor <;>
  · rw [List.mem_flatten]
    refine ⟨graphEntry nPhil nForks states holders i,
      List.mem_map.mpr ⟨i, List.mem_range.mpr hi, rfl⟩, ?_⟩
    unfold graphEntry
    rw [if_pos he]
    simp

/-- Witness for C6: a one-agent snapshot with the agent EATING. -/
theorem get_resource_graph_witness :
    get_resource_graph 1 1 [PState.eating] [0] =
      ((List.range 1).map (graphEntry 1 1 [PState.eating] [0])).flatten ∧
    [Int.ofNat 0, Int.ofNat (graphLeft 1 1 0), 1] ∈ get_resource_graph 1 1 [PState.eating] [0] ∧
    [Int.ofNat 0, Int.ofNat (graphRight 1 1 0), 1] ∈ get_resource_graph 1 1 [PState.eating] [0] :=
  ⟨(get_resource_graph_spec 1 1 [PState.eating] [0]).1,
   (get_resource_graph_spec 1 1 [PState.eating] [0]).2 0 (by decide) rfl⟩

/-! ## C1: the safety check versus the spec's reference simulation -/

theorem initAvailNeed_eq_upTo (nPhil nForks : Nat) (holders : List Int) :
    initAvailNeed nPhil nForks holders = initANUpTo nPhil nForks holders nForks := rfl

theorem getD_ge_of_mem (holders : List Int) (hge : ∀ h ∈ holders, -1 ≤ h) (f : Nat) :
    -1 ≤ holders.getD f (-1) := by
  rcases Nat.lt_or_ge f holders.length with h | h
  · rw [List.getD_eq_getElem _ _ h]
    exact hge _ (List.getElem_mem h)
  · rw [List.getD_eq_default _ _ h]

theorem initANUpTo_spec (nPhil nForks : Nat) (holders : List Int)
    (hge : ∀ h ∈ holders, -1 ≤ h) (k : Nat) (hk : k ≤ nForks) :
    (initANUpTo nPhil nForks holders k).1.length = nForks ∧
    (initANUpTo nPhil nForks holders k).2.length = nPhil ∧
    (∀ j, j < nForks →
      (initANUpTo nPhil nForks holders k).1.getD j false =
        if j < k then holders.getD j (-1) == -1 else true) ∧
    (∀ j, j < nPhil →
      (initANUpTo nPhil nForks holders k).2.getD j 0 =
        2 - Int.ofNat ((List.range k).countP (fun f => holders.getD f (-1) == Int.ofNat j))) := by
  induction k with
  | zero =>
    refine ⟨by simp [initANUpTo], by simp [initANUpTo], ?_, ?_⟩
    · intro j hj
      simp only [initANUpTo, List.range_zero, List.foldl_nil]
      rw [if_neg (by omega)]
      exact getD_replicate nForks j true false hj
    · intro j hj
      simp only [initANUpTo, List.range_zero, List.foldl_nil, List.countP_nil]
      rw [getD_replicate nPhil j 2 0 hj]
      rfl
  | succ k ih =>
    have hk1 : k ≤ nForks := Nat.le_of_succ_le hk
    have hkF : k < nForks := hk
    obtain ⟨ih1, ih2, ih3, ih4⟩ := ih hk1
    have hstep : initANUpTo nPhil nForks holders (k + 1) =
        (if holders.getD k (-1) != -1 then
          ((initANUpTo nPhil nForks holders k).1.set k false,
           (initANUpTo nPhil nForks holders k).2.set (holders.getD k (-1)).toNat
             ((initANUpTo nPhil nForks holders k).2.getD (holders.getD k (-1)).toNat 0 - 1))
        else initANUpTo nPhil nForks holders k) := by
      simp only [initANUpTo, List.range_succ, List.foldl_append, List.foldl_cons, List.foldl_nil]
    by_cases hheld : holders.getD k (-1) = -1
    · have hcond : ¬ ((holders.getD k (-1) != -1) = true) := by
        rw [bne_iff_ne]
        exact fun hne => hne hheld
      rw [hstep, if_neg hcond]
      refine ⟨ih1, ih2, ?_, ?_⟩
      · intro j hj
        rw [ih3 j hj]
        by_cases hjk : j < k
        · rw [if_pos hjk, if_pos (by omega)]
        · by_cases hjk1 : j < k + 1
          · have : j = k := by omega
            subst this
            rw [if_neg hjk, if_pos hjk1, hheld]
            rfl
          · rw [if_neg hjk, if_neg hjk1]
      · intro j hj
        rw [ih4 j hj]
        have : ((List.range (k + 1)).countP (fun f => holders.getD f (-1) == Int.ofNat j)) =
            ((List.range k).countP (fun f => holders.getD f (-1) == Int.ofNat j)) := by
          rw [List.range_succ, List.countP_append, List.countP_cons, List.countP_nil, hheld]
          have hne : ((-1 : Int) == Int.ofNat j) = false := by
            rw [beq_eq_false_iff_ne]
            simp only [Int.ofNat_eq_natCast]
            omega
          rw [hne]
          rfl
        rw [this]
    · have hbne : (holders.getD k (-1) != -1) = true := bne_iff_ne.mpr hheld
      have hpos : 0 ≤ holders.getD k (-1) := by
        have := getD_ge_of_mem holders hge k
        omega
      have htn : Int.ofNat (holders.getD k (-1)).toNat = holders.getD k (-1) :=
        Int.toNat_of_nonneg hpos
      rw [hstep, if_pos hbne]
      refine ⟨by simpa using ih1, by simpa using ih2, ?_, ?_⟩
      · intro j hj
        by_cases hjk : j = k
        · rw [hjk, getD_set_self _ _ _ _ (by rw [ih1]; exact hkF), if_pos (by omega)]
          have hf : (holders.getD k (-1) == -1) = false := beq_eq_false_iff_ne.mpr hheld
          rw [hf]
        · rw [getD_set_ne _ _ _ _ _ (fun hc => hjk hc.symm), ih3 j hj]
          by_cases hjk2 : j < k
          · rw [if_pos hjk2, if_pos (by omega)]
          · rw [if_neg hjk2, if_neg (by omega)]
      · intro j hj
        have hcnt : ((List.range (k + 1)).countP (fun f => holders.getD f (-1) == Int.ofNat j)) =
            ((List.range k).countP (fun f => holders.getD f (-1) == Int.ofNat j)) +
              (if holders.getD k (-1) == Int.ofNat j then 1 else 0) := by
          rw [List.range_succ, List.countP_append, List.countP_cons, List.countP_nil,
            Nat.zero_add]
        by_cases hjh : (holders.getD k (-1)).toNat = j
        · subst hjh
          rw [getD_set_self _ _ _ _ (by rw [ih2]; omega), ih4 _ hj, hcnt]
          have : (holders.getD k (-1) == Int.ofNat (holders.getD k (-1)).toNat) = true := by
            rw [beq_iff_eq, htn]
          rw [this]
          simp only [if_true, Int.ofNat_eq_natCast]
          push_cast
          omega
        · rw [getD_set_ne _ _ _ _ _ hjh, ih4 _ hj, hcnt]
          have : (holders.getD k (-1) == Int.ofNat j) = false := by
            rw [beq_eq_false_iff_ne]
            intro hc
            apply hjh
            rw [hc]
            simp
          rw [this]
          simp

theorem initAvailNeed_spec (nPhil nForks : Nat) (holders : List Int)
    (hge : ∀ h ∈ holders, -1 ≤ h) :
    (initAvailNeed nPhil nForks holders).1 = availSpec nForks holders ∧
    (initAvailNeed nPhil nForks holders).2 = needSpec nPhil nForks holders := by
  obtain ⟨h1, h2, h3, h4⟩ := initANUpTo_spec nPhil nForks holders hge nForks (Nat.le_refl _)
  rw [initAvailNeed_eq_upTo]
  constructor
  · apply List.ext_getElem
    · rw [h1]
      simp [availSpec]
    · intro n hn1 hn2
      have hnF : n < nForks := by rwa [h1] at hn1
      have hgd := h3 n hnF
      rw [if_pos hnF] at hgd
      rw [List.getD_eq_getElem _ _ hn1] at hgd
      rw [hgd]
      simp [availSpec]
  · apply List.ext_getElem
    · rw [h2]
      simp [needSpec]
    · intro n hn1 hn2
      have hnP : n < nPhil := by rwa [h2] at hn1
      have hgd := h4 n hnP
      rw [List.getD_eq_getElem _ _ hn1] at hgd
      rw [hgd]
      simp [needSpec]

theorem codeRelease_eq_releaseAmend (nPhil nForks : Nat) (holders : List Int) (a r : Nat)
    (avail : List Bool) (i : Nat) :
    codeRelease nPhil nForks holders a r avail i =
      releaseAmend nPhil nForks holders a r avail i := rfl

theorem leftOkB_eq_obtainable (nPhil nForks : Nat) (holders : List Int) (avail : List Bool)
    (a r i : Nat) :
    leftOkB nPhil nForks holders avail a r i =
      obtainable holders avail a r i (specLeftFork nPhil nForks i) := rfl

theorem rightOkB_eq_obtainable (nPhil nForks : Nat) (holders : List Int) (avail : List Bool)
    (a r i : Nat) :
    rightOkB nPhil nForks holders avail a r i =
      obtainable holders avail a r i (specRightFork nPhil nForks i) := rfl

theorem count_true_set (l : List Bool) (i : Nat) (hi : i < l.length)
    (hf : l.getD i false = false) :
    (l.set i true).count true = l.count true + 1 := by
  induction l generalizing i with
  | nil => simp at hi
  | cons x xs ih =>
    cases i with
    | zero =>
      have hx : x = false := hf
      subst hx
      rw [List.set_cons_zero, List.count_cons, List.count_cons]
      simp
    | succ n =>
      have hn : n < xs.length := by simpa using hi
      have hfn : xs.getD n false = false := hf
      rw [List.set_cons_succ, List.count_cons, List.count_cons, ih n hn hfn]
      omega

/-- Single-step correspondence between the code scan and the amended scan:
both update the same finish and available vectors. -/
theorem scanStep_amend_corr (nPhil nForks : Nat) (holders : List Int) (a r : Nat)
    (need : List Int) (av fin : List Bool) (c : Nat) (f : Bool) (i : Nat) :
    (scanStep nPhil nForks holders a r need (⟨av, fin, c⟩, f) i).1.avail =
      (amendScanStep nPhil nForks holders a r need (fin, av) i).2 ∧
    (scanStep nPhil nForks holders a r need (⟨av, fin, c⟩, f) i).1.finish =
      (amendScanStep nPhil nForks holders a r need (fin, av) i).1 := by
  unfold scanStep amendScanStep
  rw [← leftOkB_eq_obtainable, ← rightOkB_eq_obtainable, ← codeRelease_eq_releaseAmend]
  dsimp only
  split_ifs <;> exact ⟨rfl, rfl⟩

/-- Fold correspondence between the code scan and the amended scan. -/
theorem foldScan_amend_corr (nPhil nForks : Nat) (holders : List Int) (a r : Nat)
    (need : List Int) (l : List Nat) :
    ∀ (av fin : List Bool) (c : Nat) (f : Bool),
    (l.foldl (scanStep nPhil nForks holders a r need) (⟨av, fin, c⟩, f)).1.avail =
      (l.foldl (amendScanStep nPhil nForks holders a r need) (fin, av)).2 ∧
    (l.foldl (scanStep nPhil nForks holders a r need) (⟨av, fin, c⟩, f)).1.finish =
      (l.foldl (amendScanStep nPhil nForks holders a r need) (fin, av)).1 := by
  induction l with
  | nil => intro av fin c f; exact ⟨rfl, rfl⟩
  | cons x xs ih =>
    intro av fin c f
    rw [List.foldl_cons, List.foldl_cons]
    have h := scanStep_amend_corr nPhil nForks holders a r need av fin c f x
    rcases hP : scanStep nPhil nForks holders a r need (⟨av, fin, c⟩, f) x with ⟨⟨av1, fin1, c1⟩, f1⟩
    rcases hQ : amendScanStep nPhil nForks holders a r need (fin, av) x with ⟨fin2, av2⟩
    rw [hP, hQ] at h
    obtain ⟨h1, h2⟩ := h
    dsimp only at h1 h2
    subst h1
    subst h2
    exact ih av1 fin1 c1 f1

/-- The scan step preserves the two structural invariants of the loop state:
the finish vector keeps length `nPhil` and the finished count stays equal to
the number of finished agents. -/
theorem scanStep_inv (nPhil nForks : Nat) (holders : List Int) (a r : Nat)
    (need : List Int) (p : BankerState × Bool) (i : Nat) (hi : i < nPhil)
    (hlen : p.1.finish.length = nPhil)
    (hc : p.1.finishedCount = p.1.finish.count true) :
    (scanStep nPhil nForks holders a r need p i).1.finish.length = nPhil ∧
    (scanStep nPhil nForks holders a r need p i).1.finishedCount =
      (scanStep nPhil nForks holders a r need p i).1.finish.count true := by
  unfold scanStep
  split_ifs with h1 h2 h3
  · exact ⟨hlen, hc⟩
  · have hfalse : p.1.finish.getD i false = false := by
      revert h1
      cases p.1.finish.getD i false <;> simp
    refine ⟨by simpa using hlen, ?_⟩
    dsimp only
    rw [count_true_set _ _ (by omega) hfalse, hc]
  · have hfalse : p.1.finish.getD i false = false := by
      revert h1
      cases p.1.finish.getD i false <;> simp
    refine ⟨by simpa using hlen, ?_⟩
    dsimp only
    rw [count_true_set _ _ (by omega) hfalse, hc]
  · exact ⟨hlen, hc⟩

theorem foldScan_inv (nPhil nForks : Nat) (holders : List Int) (a r : Nat)
    (need : List Int) (l : List Nat) (hl : ∀ x ∈ l, x < nPhil) :
    ∀ (p : BankerState × Bool),
    p.1.finish.length = nPhil →
    p.1.finishedCount = p.1.finish.count true →
    (l.foldl (scanStep nPhil nForks holders a r need) p).1.finish.length = nPhil ∧
    (l.foldl (scanStep nPhil nForks holders a r need) p).1.finishedCount =
      (l.foldl (scanStep nPhil nForks holders a r need) p).1.finish.count true := by
  induction l with
  | nil => intro p h1 h2; exact ⟨h1, h2⟩
  | cons x xs ih =>
    intro p h1 h2
    rw [List.foldl_cons]
    have hx : x < nPhil := hl x (List.mem_cons_self x xs)
    obtain ⟨g1, g2⟩ := scanStep_inv nPhil nForks holders a r need p x hx h1 h2
    exact ih (fun y hy => hl y (List.mem_cons_of_mem x hy)) _ g1 g2

theorem count_true_all (l : List Bool) :
    l.all (fun b => b) = true ↔ l.count true = l.length := by
  induction l with
  | nil => simp
  | cons x xs ih =>
    have hle := List.count_le_length true xs
    cases x
    · simp only [List.all_cons, List.count_cons, List.length_cons, Bool.false_and,
        Bool.false_eq_true, false_iff]
      simp only [show ((false : Bool) == true) = false from rfl, Bool.false_eq_true, if_false]
      omega
    · simp only [List.all_cons, List.count_cons, List.length_cons, Bool.true_and,
        show ((true : Bool) == true) = true from rfl, if_true]
      rw [ih]
      omega

theorem count_true_le_of_mono (l1 : List Bool) :
    ∀ (l2 : List Bool), l1.length = l2.length →
    (∀ j, l1.getD j false = true → l2.getD j false = true) →
    l1.count true ≤ l2.count true := by
  induction l1 with
  | nil => intro l2 hlen hmono; simp
  | cons x xs ih =>
    intro l2 hlen hmono
    cases l2 with
    | nil => simp at hlen
    | cons y ys =>
      have hl2 : xs.length = ys.length := by simpa using hlen
      have hmS : ∀ j, xs.getD j false = true → ys.getD j false = true := by
        intro j hj
        exact hmono (j + 1) hj
      rw [List.count_cons, List.count_cons]
      have hrec := ih ys hl2 hmS
      cases x
      · cases y <;> simp <;> omega
      · have hy : y = true := hmono 0 rfl
        subst hy
        simpa using hrec

/-- Two Bool lists of the same length, related pointwise by implication and
with the same number of `true` entries, are equal. -/
theorem bool_list_eq_of_mono_count (l1 : List Bool) :
    ∀ (l2 : List Bool), l1.length = l2.length →
    (∀ j, l1.getD j false = true → l2.getD j false = true) →
    l1.count true = l2.count true → l1 = l2 := by
  induction l1 with
  | nil =>
    intro l2 hlen hmono hcount
    cases l2 with
    | nil => rfl
    | cons y ys => simp at hlen
  | cons x xs ih =>
    intro l2 hlen hmono hcount
    cases l2 with
    | nil => simp at hlen
    | cons y ys =>
      have hlen2 : xs.length = ys.length := by simpa using hlen
      have hmonoS : ∀ j, xs.getD j false = true → ys.getD j false = true := by
        intro j hj
        exact hmono (j + 1) hj
      rw [List.count_cons, List.count_cons] at hcount
      cases x <;> cases y
      · have : xs.count true = ys.count true := by simpa using hcount
        rw [ih ys hlen2 hmonoS this]
      · exfalso
        have hcontra := count_true_le_of_mono xs ys hlen2 hmonoS
        have hxs : xs.count true = ys.count true + 1 := by simpa using hcount
        omega
      · have : (false : Bool) = true := hmono 0 rfl
        simp at this
      · have : xs.count true = ys.count true := by simpa using hcount
        rw [ih ys hlen2 hmonoS this]

/-- Unfolding equation for `scanOnce`. -/
theorem scanOnce_eq_foldl (nPhil nForks : Nat) (holders : List Int) (a r : Nat)
    (need : List Int) (st : BankerState) :
    scanOnce nPhil nForks holders a r need st =
      (List.range nPhil).foldl (scanStep nPhil nForks holders a r need) (st, false) := rfl

/-- Unfolding equation for `amendScan`. -/
theorem amendScan_eq_foldl (nPhil nForks : Nat) (holders : List Int) (a r : Nat)
    (need : List Int) (q : List Bool × List Bool) :
    amendScan nPhil nForks holders a r need q =
      (List.range nPhil).foldl (amendScanStep nPhil nForks holders a r need) q := rfl

/-- Loop correspondence: from related states, the code's completion loop and
the amended reference loop return the same verdict, fuel step by fuel step. -/
theorem loop_amend_corr (nPhil nForks : Nat) (holders : List Int) (a r : Nat)
    (need : List Int) (fuel : Nat) :
    ∀ (av fin : List Bool) (c : Nat),
    fin.length = nPhil →
    c = fin.count true →
    safeLoop nPhil nForks holders a r need fuel ⟨av, fin, c⟩ =
      amendLoop nPhil nForks holders a r need fuel (fin, av) := by
  induction fuel with
  | zero => intro av fin c hlen hc; rfl
  | succ f ih =>
    intro av fin c hlen hc
    have hcle : fin.count true ≤ fin.length := List.count_le_length true fin
    have hfold := foldScan_amend_corr nPhil nForks holders a r need (List.range nPhil)
      av fin c false
    have hinv := foldScan_inv nPhil nForks holders a r need (List.range nPhil)
      (fun x hx => List.mem_range.mp hx) (⟨av, fin, c⟩, false) hlen hc
    have hprog := foldl_scanStep_progress nPhil nForks holders a r need (List.range nPhil)
      (⟨av, fin, c⟩, false)
    unfold safeLoop amendLoop
    rw [scanOnce_eq_foldl, amendScan_eq_foldl]
    rcases hP : (List.range nPhil).foldl (scanStep nPhil nForks holders a r need)
      (⟨av, fin, c⟩, false) with ⟨⟨av1, fin1, c1⟩, f1⟩
    rcases hQ : (List.range nPhil).foldl (amendScanStep nPhil nForks holders a r need)
      (fin, av) with ⟨fin2, av2⟩
    rw [hP, hQ] at hfold
    rw [hP] at hinv hprog
    obtain ⟨e1, e2⟩ := hfold
    dsimp only at e1 e2 hinv hprog
    subst e1
    subst e2
    dsimp only
    by_cases hltn : c < nPhil
    · have hnall : ¬ (fin.all (fun b => b) = true) := by
        rw [count_true_all]
        omega
      rw [if_pos hltn, if_neg hnall]
      rcases hprog with heqp | ⟨hf1, hcnt⟩
      · have hfin1 : fin1 = fin := congrArg (fun t => t.1.finish) heqp
        have hf1 : f1 = false := congrArg Prod.snd heqp
        subst hf1
        rw [if_neg (by simp)]
        have hbeq : (fin1 == fin) = true := by
          rw [beq_iff_eq]
          exact hfin1
        rw [if_pos hbeq]
      · subst hf1
        rw [if_pos rfl]
        have hfinne : (fin1 == fin) = false := by
          rw [beq_eq_false_iff_ne]
          intro heq
          have hcc : c1 = fin1.count true := hinv.2
          rw [heq] at hcc
          omega
        rw [if_neg (by rw [hfinne]; simp)]
        exact ih av1 fin1 c1 hinv.1 hinv.2
    · have hall : (fin.all (fun b => b) = true) := by
        rw [count_true_all]
        omega
      rw [if_neg hltn, if_pos hall]

theorem is_safe_stateO_eq_amendedO (nPhil nForks : Nat) (holders : List Int) (a r : Nat)
    (hge : ∀ h ∈ holders, -1 ≤ h) :
    is_safe_stateO nPhil nForks holders a r = is_safe_amendedO nPhil nForks holders a r := by
  obtain ⟨hA, hN⟩ := initAvailNeed_spec nPhil nForks holders hge
  unfold is_safe_stateO is_safe_amendedO
  rw [hA, hN]
  by_cases hr : (availSpec nForks holders).getD r false = false
  · rw [if_pos hr, if_pos hr]
  · rw [if_neg hr, if_neg hr]
    exact loop_amend_corr nPhil nForks holders a r _ (nPhil + 1) _ _ 0 (by simp)
      (by simp [List.count_replicate])

/-- C1 counterexample: on four agents and five forks with agent 0 holding
forks 0 and 1 (so its remaining need is 0) and agent 3 requesting fork 4,
the code's `is_safe_state` answers false — agent 0 finishes through the
`need ≤ 0` branch without releasing its forks, leaving agent 1 stuck — while
the spec's reference simulation, which releases the resources of every
finishing agent, answers true. -/
theorem is_safe_state_spec_counterexample :
    is_safe_state 4 5 [0, 0, -1, -1, -1] 3 4 = false ∧
    is_safe_spec 4 5 [0, 0, -1, -1, -1] 3 4 = true := by decide

/-- C1 (amended): `is_safe_state(a, r)` equals the reference Banker
completion simulation in which available and need are derived from the
current holders, the request is rejected immediately if `r` is unavailable,
the grant is simulated, and unfinished agents are scanned repeatedly in id
order, an agent finishing when its remaining need is ≤ 0 — releasing
nothing — or when both its left and right forks are obtainable — then
marking available only its left and right forks when it holds them, plus
the granted fork when it is the requester; true iff all agents finish,
false as soon as a full pass produces no new finisher.  (The code never
releases resources on a `need ≤ 0` finish, unlike the spec's reference.) -/
theorem is_safe_state_eq_amended (nPhil nForks : Nat) (holders : List Int) (a r : Nat)
    (hge : ∀ h ∈ holders, -1 ≤ h) :
    is_safe_state nPhil nForks holders a r = is_safe_amended nPhil nForks holders a r := by
  unfold is_safe_state is_safe_amended
  rw [is_safe_stateO_eq_amendedO nPhil nForks holders a r hge]

/-- Witness for the amended C1 at the counterexample input. -/
theorem is_safe_state_eq_amended_witness :
    is_safe_state 4 5 [0, 0, -1, -1, -1] 3 4 = is_safe_amended 4 5 [0, 0, -1, -1, -1] 3 4 :=
  is_safe_state_eq_amended 4 5 [0, 0, -1, -1, -1] 3 4 (by decide)

/-! ## C3: deadlock detection finds exactly the wait-for cycles -/

theorem iterO_succ (wf : Nat → Option Nat) (k x : Nat) :
    iterO wf (k + 1) x = (wf x).bind (iterO wf k) := rfl

theorem iterO_add (wf : Nat → Option Nat) (i j : Nat) :
    ∀ x, iterO wf (i + j) x = (iterO wf i x).bind (iterO wf j) := by
  induction i with
  | zero => intro x; simp [iterO]
  | succ i ih =>
    intro x
    rw [show i + 1 + j = (i + j) + 1 from by omega, iterO_succ, iterO_succ]
    cases hwx : wf x with
    | none => simp
    | some y => simp [ih y]

theorem iterO_succ_right (wf : Nat → Option Nat) (m x : Nat) :
    iterO wf (m + 1) x = (iterO wf m x).bind wf := by
  rw [iterO_add wf m 1 x]
  cases h : iterO wf m x with
  | none => rfl
  | some y =>
    simp only [Option.some_bind, iterO_succ]
    cases wf y <;> rfl

theorem orbit_defined (wf : Nat → Option Nat) (x k : Nat)
    (hcyc : iterO wf (k + 1) x = some x) (j : Nat) (hj : j ≤ k + 1) :
    ∃ y, iterO wf j x = some y := by
  have hadd := iterO_add wf j (k + 1 - j) x
  rw [show j + (k + 1 - j) = k + 1 from by omega] at hadd
  rw [hcyc] at hadd
  obtain ⟨y, hy, _⟩ := Option.bind_eq_some.mp hadd.symm
  exact ⟨y, hy⟩

theorem chain_iterO (wf : Nat → Option Nat) (L : List Nat)
    (hch : ∀ j, j + 1 < L.length → wf (L.getD j 0) = some (L.getD (j + 1) 0)) :
    ∀ d i, i + d < L.length → iterO wf d (L.getD i 0) = some (L.getD (i + d) 0) := by
  intro d
  induction d with
  | zero => intro i hi; rfl
  | succ d ih =>
    intro i hi
    rw [iterO_succ, hch i (by omega), Option.some_bind,
      show i + (d + 1) = (i + 1) + d from by omega]
    exact ih (i + 1) (by omega)

theorem nodup_lt_length_le (L : List Nat) (n : Nat) (hnd : L.Nodup)
    (hlt : ∀ y ∈ L, y < n) : L.length ≤ n := by
  have h1 : L.toFinset.card = L.length := List.toFinset_card_of_nodup hnd
  have h2 : L.toFinset ⊆ Finset.range n := by
    intro y hy
    rw [Finset.mem_range]
    exact hlt y (List.mem_toFinset.mp hy)
  have h3 := Finset.card_le_card h2
  rw [Finset.card_range] at h3
  omega

/-- If the chain walk of `detect_deadlock` reports a revisit, the wait-for
map has a cycle of length at most `nPhil`. -/
theorem ddWalk_true_cycle (nPhil : Nat) (wf : Nat → Option Nat)
    (hdom : ∀ i v, wf i = some v → i < nPhil) :
    ∀ (fuel curr : Nat) (visited : List Nat),
    (∀ j, j + 1 < (visited ++ [curr]).length →
      wf ((visited ++ [curr]).getD j 0) = some ((visited ++ [curr]).getD (j + 1) 0)) →
    (visited ++ [curr]).Nodup →
    ddWalk wf fuel curr visited = true →
    HasCycleF nPhil wf := by
  intro fuel
  induction fuel with
  | zero => intro curr visited hch hnd hwalk; cases hwalk
  | succ fuel ih =>
    intro curr visited hch hnd hwalk
    unfold ddWalk at hwalk
    rcases hwc : wf curr with _ | nxt
    · rw [hwc] at hwalk
      cases hwalk
    · rw [hwc] at hwalk
      dsimp only at hwalk
      have hLlen : (visited ++ [curr]).length = visited.length + 1 := by simp
      have hlast : (visited ++ [curr]).getD visited.length 0 = curr := by
        rw [List.getD_append_right visited [curr] 0 visited.length (Nat.le_refl _)]
        simp
      have halllt : ∀ y ∈ visited ++ [curr], y < nPhil := by
        intro y hy
        obtain ⟨i, hi, hyi⟩ := List.mem_iff_getElem.mp hy
        have hgd : (visited ++ [curr]).getD i 0 = y := by
          rw [List.getD_eq_getElem _ _ hi]
          exact hyi
        rcases Nat.lt_or_ge i visited.length with hilt | hige
        · have := hch i (by omega)
          rw [hgd] at this
          exact hdom y _ this
        · have hieq : i = visited.length := by omega
          rw [hieq, hlast] at hgd
          rw [hgd] at hwc
          exact hdom y nxt hwc
      by_cases hmem : nxt ∈ visited ++ [curr]
      · -- revisit found: build the cycle
        obtain ⟨i, hi, hnxti⟩ := List.mem_iff_getElem.mp hmem
        have hgd : (visited ++ [curr]).getD i 0 = nxt := by
          rw [List.getD_eq_getElem _ _ hi]
          exact hnxti
        have hiter : iterO wf (visited.length - i) ((visited ++ [curr]).getD i 0) =
            some ((visited ++ [curr]).getD visited.length 0) := by
          have := chain_iterO wf (visited ++ [curr]) hch (visited.length - i) i
            (by rw [hLlen]; omega)
          rw [show i + (visited.length - i) = visited.length from by omega] at this
          exact this
        have hcyc : iterO wf (visited.length - i + 1) nxt = some nxt := by
          rw [iterO_succ_right, ← hgd, hiter, hlast, Option.some_bind, hwc, hgd]
        refine ⟨nxt, ?_, visited.length - i, ?_, hcyc⟩
        · exact halllt nxt hmem
        · have hlen_le : (visited ++ [curr]).length ≤ nPhil :=
            nodup_lt_length_le _ nPhil hnd halllt
          rw [hLlen] at hlen_le
          omega
      · -- no revisit: extend the chain and recurse
        rw [if_neg hmem] at hwalk
        apply ih nxt (visited ++ [curr]) ?_ ?_ hwalk
        · intro j hj
          simp only [List.length_append, List.length_singleton] at hj
          by_cases hjl : j + 1 < (visited ++ [curr]).length
          · rw [List.getD_append _ [nxt] 0 j (by omega), List.getD_append _ [nxt] 0 (j+1) hjl]
            exact hch j hjl
          · have hjeq : j = visited.length := by
              rw [hLlen] at hjl
              omega
            rw [List.getD_append _ [nxt] 0 j (by rw [hLlen]; omega)]
            rw [hjeq, hlast]
            have : ((visited ++ [curr]) ++ [nxt]).getD (visited.length + 1) 0 = nxt := by
              rw [List.getD_append_right (visited ++ [curr]) [nxt] 0 (visited.length + 1)
                (by rw [hLlen])]
              rw [hLlen]
              simp
            rw [this]
            exact hwc
        · rw [List.nodup_append]
          refine ⟨hnd, List.nodup_singleton nxt, ?_⟩
          intro y hy
          simp only [List.mem_singleton]
          intro hc
          subst hc
          exact hmem hy

/-- If the wait-for map has a cycle through `x`, the walk starting at `x`
reports it, given enough fuel. -/
theorem ddWalk_reaches_cycle (wf : Nat → Option Nat) (x k : Nat)
    (hcyc : iterO wf (k + 1) x = some x) :
    ∀ (fuel m curr : Nat) (visited : List Nat),
    m ≤ k → iterO wf m x = some curr → x ∈ visited ++ [curr] →
    k + 1 - m ≤ fuel →
    ddWalk wf fuel curr visited = true := by
  intro fuel
  induction fuel with
  | zero => intro m curr visited hm hit hx hfuel; omega
  | succ fuel ih =>
    intro m curr visited hm hit hx hfuel
    obtain ⟨nxt, hnxt⟩ := orbit_defined wf x k hcyc (m + 1) (by omega)
    have hwc : wf curr = some nxt := by
      rw [iterO_succ_right, hit, Option.some_bind] at hnxt
      exact hnxt
    unfold ddWalk
    rw [hwc]
    dsimp only
    by_cases hmem : nxt ∈ visited ++ [curr]
    · rw [if_pos hmem]
    · rw [if_neg hmem]
      have hmk : m < k := by
        rcases Nat.lt_or_ge m k with h | h
        · exact h
        · exfalso
          have hmeq : m = k := by omega
          subst hmeq
          rw [hnxt] at hcyc
          have : nxt = x := by
            injection hcyc
          subst this
          exact hmem hx
      exact ih (m + 1) nxt (visited ++ [curr]) (by omega) hnxt
        (List.mem_append_left [nxt] hx) (by omega)

theorem waiting_for_dom (nPhil nForks : Nat) (states : List PState) (holders : List Int)
    (i v : Nat) (h : waiting_for nPhil nForks states holders i = some v) : i < nPhil := by
  by_cases h1 : i < nPhil
  · exact h1
  · exfalso
    unfold waiting_for at h
    rw [if_neg h1] at h
    cases h

theorem detect_deadlock_iff_cycle (nPhil nForks : Nat) (states : List PState)
    (holders : List Int) :
    detect_deadlock nPhil nForks states holders = true ↔
      HasCycleF nPhil (waiting_for nPhil nForks states holders) := by
  constructor
  · intro hdet
    unfold detect_deadlock at hdet
    rw [List.any_eq_true] at hdet
    obtain ⟨start, hstart, hwalk⟩ := hdet
    exact ddWalk_true_cycle nPhil (waiting_for nPhil nForks states holders)
      (waiting_for_dom nPhil nForks states holders) (nPhil + 1) start [] (by simp) (by simp)
      hwalk
  · rintro ⟨x, hx, k, hk, hcyc⟩
    unfold detect_deadlock
    rw [List.any_eq_true]
    refine ⟨x, ?_, ?_⟩
    · rw [List.mem_filter]
      refine ⟨List.mem_range.mpr hx, ?_⟩
      rw [iterO_succ] at hcyc
      obtain ⟨y, hy, _⟩ := Option.bind_eq_some.mp hcyc
      rw [hy]
      rfl
    · exact ddWalk_reaches_cycle (waiting_for nPhil nForks states holders) x k hcyc
        (nPhil + 1) 0 x [] (by omega) rfl (by simp) (by omega)

/-- C3: `detect_deadlock` returns true exactly when the wait-for map — each
HUNGRY agent that misses its left fork pointing to that fork's holder, an
agent holding its left but missing a held right pointing to the right
holder — has a cycle reachable by following chains from a mapped node
(equivalently, some node chains back to itself); and on the `create(3,3)`
snapshot where two HUNGRY agents each hold one fork and each waits on the
fork the other holds, it returns true. -/
theorem detect_deadlock_spec :
    (∀ (nPhil nForks : Nat) (states : List PState) (holders : List Int),
      (detect_deadlock nPhil nForks states holders = true ↔
        HasCycleF nPhil (waiting_for nPhil nForks states holders))) ∧
    detect_deadlock 3 3 [PState.hungry, PState.hungry, PState.thinking] [1, 0, -1] = true :=
  ⟨detect_deadlock_iff_cycle, by decide⟩

/-! ## C4: deadlock detection under BANKER -/

/-- C4 counterexample: under the racy protocol — permission and `try_lock`
are separate steps, as in the code — with strategy BANKER continuously from
start, a state in which `detect_deadlock` returns true is reachable with two
agents and two forks: both agents obtain permission for their left forks on
the empty table (both grants are safe at that moment), then both lock their
left forks; the resulting snapshot has a wait-for cycle.  The Banker check
cannot prevent the transient hold-and-wait cycle created in the window
between permission and acquisition. -/
theorem banker_racy_transient_deadlock :
    ReachR 2 2 ⟨2, 2, [Phase.holdL, Phase.holdL], [0, 1], [0, 0]⟩ ∧
    ddOf ⟨2, 2, [Phase.holdL, Phase.holdL], [0, 1], [0, 0]⟩ = true := by
  constructor
  · have h0 : ReachR 2 2 ⟨2, 2, [Phase.thinking, Phase.thinking], [-1, -1], [0, 0]⟩ :=
      ReachR.init 2 2
    have h1 : ReachR 2 2 ⟨2, 2, [Phase.hungryIdle, Phase.thinking], [-1, -1], [0, 0]⟩ :=
      ReachR.step 2 2 _ _ h0
        (RStep.toHungry ⟨2, 2, [Phase.thinking, Phase.thinking], [-1, -1], [0, 0]⟩ 0 (by decide) rfl)
    have h2 : ReachR 2 2 ⟨2, 2, [Phase.hungryIdle, Phase.hungryIdle], [-1, -1], [0, 0]⟩ :=
      ReachR.step 2 2 _ _ h1
        (RStep.toHungry ⟨2, 2, [Phase.hungryIdle, Phase.thinking], [-1, -1], [0, 0]⟩ 1 (by decide) rfl)
    have h3 : ReachR 2 2 ⟨2, 2, [Phase.permL, Phase.hungryIdle], [-1, -1], [0, 0]⟩ :=
      ReachR.step 2 2 _ _ h2
        (RStep.permLeft ⟨2, 2, [Phase.hungryIdle, Phase.hungryIdle], [-1, -1], [0, 0]⟩ 0 rfl
          (by decide))
    have h4 : ReachR 2 2 ⟨2, 2, [Phase.permL, Phase.permL], [-1, -1], [0, 0]⟩ :=
      ReachR.step 2 2 _ _ h3
        (RStep.permLeft ⟨2, 2, [Phase.permL, Phase.hungryIdle], [-1, -1], [0, 0]⟩ 1 rfl
          (by decide))
    have h5 : ReachR 2 2 ⟨2, 2, [Phase.holdL, Phase.permL], [0, -1], [0, 0]⟩ :=
      ReachR.step 2 2 _ _ h4
        (RStep.lockLeft ⟨2, 2, [Phase.permL, Phase.permL], [-1, -1], [0, 0]⟩ 0 rfl rfl)
    exact ReachR.step 2 2 _ _ h5
      (RStep.lockLeft ⟨2, 2, [Phase.holdL, Phase.permL], [0, -1], [0, 0]⟩ 1 rfl rfl)
  · decide

theorem orbitF_start (wf : Nat → Option Nat) (x k : Nat) : OrbitF wf x k x :=
  ⟨0, Nat.zero_le k, rfl⟩

theorem orbitF_out (wf : Nat → Option Nat) (x k : Nat)
    (hcyc : iterO wf (k + 1) x = some x) :
    ∀ y, OrbitF wf x k y → ∃ v, wf y = some v ∧ OrbitF wf x k v := by
  rintro y ⟨j, hj, hy⟩
  by_cases hjk : j = k
  · subst hjk
    have hsr := iterO_succ_right wf j x
    rw [hy, Option.some_bind] at hsr
    rw [hsr] at hcyc
    exact ⟨x, hcyc, orbitF_start wf x j⟩
  · obtain ⟨v, hv⟩ := orbit_defined wf x k hcyc (j + 1) (by omega)
    have hsr := iterO_succ_right wf j x
    rw [hy, Option.some_bind] at hsr
    rw [hv] at hsr
    exact ⟨v, hsr.symm, ⟨j + 1, by omega, hv⟩⟩

theorem orbitF_in (wf : Nat → Option Nat) (x k : Nat)
    (hcyc : iterO wf (k + 1) x = some x) :
    ∀ y, OrbitF wf x k y → ∃ z, OrbitF wf x k z ∧ wf z = some y := by
  rintro y ⟨j, hj, hy⟩
  cases j with
  | zero =>
    have hxy : x = y := by
      have : (some x : Option Nat) = some y := hy
      injection this
    subst hxy
    obtain ⟨z, hz⟩ := orbit_defined wf x k hcyc k (by omega)
    have hsr := iterO_succ_right wf k x
    rw [hz, Option.some_bind] at hsr
    rw [hcyc] at hsr
    exact ⟨z, ⟨k, Nat.le_refl k, hz⟩, hsr.symm⟩
  | succ j =>
    obtain ⟨z, hz⟩ := orbit_defined wf x k hcyc j (by omega)
    have hsr := iterO_succ_right wf j x
    rw [hz, Option.some_bind] at hsr
    rw [hy] at hsr
    exact ⟨z, ⟨j, by omega, hz⟩, hsr.symm⟩

theorem cycle_transfer (wf1 wf2 : Nat → Option Nat) (x k : Nat)
    (hcyc2 : iterO wf2 (k + 1) x = some x)
    (hsame : ∀ y, OrbitF wf2 x k y → wf2 y = wf1 y) :
    iterO wf1 (k + 1) x = some x := by
  have key : ∀ j, j ≤ k + 1 → iterO wf1 j x = iterO wf2 j x := by
    intro j
    induction j with
    | zero => intro hj; rfl
    | succ j ih =>
      intro hj
      obtain ⟨y, hy⟩ := orbit_defined wf2 x k hcyc2 j (by omega)
      rw [iterO_succ_right, iterO_succ_right, ih (by omega), hy, Option.some_bind,
        Option.some_bind]
      exact (hsame y ⟨j, by omega, hy⟩).symm
  rw [key (k + 1) (Nat.le_refl _), hcyc2]

/-- No new cycle when the changed agent has no outgoing wait-for edge and
every new edge points at it. -/
theorem no_cycle_helperC (nPhil : Nat) (wf1 wf2 : Nat → Option Nat) (i0 : Nat)
    (hpre : ¬ HasCycleF nPhil wf1)
    (hedge : ∀ y v, wf2 y = some v → wf1 y = some v ∨ v = i0)
    (hout : wf2 i0 = none) : ¬ HasCycleF nPhil wf2 := by
  rintro ⟨x, hx, k, hk, hcyc⟩
  have hno : ∀ y, OrbitF wf2 x k y → y ≠ i0 := by
    intro y hy hc
    subst hc
    obtain ⟨v, hv, _⟩ := orbitF_out wf2 x k hcyc y hy
    rw [hout] at hv
    cases hv
  have hsame : ∀ y, OrbitF wf2 x k y → wf2 y = wf1 y := by
    intro y hy
    obtain ⟨v, hv, hvo⟩ := orbitF_out wf2 x k hcyc y hy
    rcases hedge y v hv with h | h
    · rw [hv, h]
    · exact absurd h (hno v hvo)
  exact hpre ⟨x, hx, k, hk, cycle_transfer wf1 wf2 x k hcyc hsame⟩

/-- No new cycle when the changed agent has no incoming wait-for edge and
all other agents' edges are unchanged. -/
theorem no_cycle_helperD (nPhil : Nat) (wf1 wf2 : Nat → Option Nat) (i0 : Nat)
    (hpre : ¬ HasCycleF nPhil wf1)
    (hedge : ∀ y v, y ≠ i0 → wf2 y = some v → wf1 y = some v)
    (hnoin : ∀ z, wf2 z ≠ some i0) : ¬ HasCycleF nPhil wf2 := by
  rintro ⟨x, hx, k, hk, hcyc⟩
  have hno : ∀ y, OrbitF wf2 x k y → y ≠ i0 := by
    intro y hy hc
    subst hc
    obtain ⟨z, hzo, hz⟩ := orbitF_in wf2 x k hcyc y hy
    exact hnoin z hz
  have hsame : ∀ y, OrbitF wf2 x k y → wf2 y = wf1 y := by
    intro y hy
    obtain ⟨v, hv, hvo⟩ := orbitF_out wf2 x k hcyc y hy
    rw [hv, hedge y v (hno y hy) hv]
  exact hpre ⟨x, hx, k, hk, cycle_transfer wf1 wf2 x k hcyc hsame⟩

theorem statesOf_getD (s : CState) (y : Nat) :
    (statesOf s).getD y .thinking = phaseState (s.phases.getD y .thinking) := by
  unfold statesOf
  by_cases hy : y < s.phases.length
  · rw [List.getD_eq_getElem _ _ (by simpa using hy), List.getD_eq_getElem _ _ hy]
    simp
  · rw [List.getD_eq_default _ _ (by simpa using (by omega : s.phases.length ≤ y)),
      List.getD_eq_default _ _ (by omega)]
    rfl

/-- Normal form of the wait-for map on a joint state. -/
theorem wfOf_eq (s : CState) (y : Nat) :
    wfOf s y =
      if y < s.nPhil then
        if phaseState (phOf s y) = PState.hungry then
          if holderOf s (lf s y) ≠ Int.ofNat y ∧ holderOf s (lf s y) ≠ -1 then
            some (holderOf s (lf s y)).toNat
          else if holderOf s (lf s y) = Int.ofNat y ∧ holderOf s (rf s y) ≠ -1 ∧
              holderOf s (rf s y) ≠ Int.ofNat y then
            some (holderOf s (rf s y)).toNat
          else none
        else none
      else none := by
  unfold wfOf waiting_for phOf holderOf lf rf
  rw [statesOf_getD]
  rfl

theorem wfOf_case1 (s : CState) (y : Nat) (h1 : y < s.nPhil)
    (h2 : phaseState (phOf s y) = PState.hungry)
    (h3 : holderOf s (lf s y) ≠ Int.ofNat y) (h4 : holderOf s (lf s y) ≠ -1) :
    wfOf s y = some (holderOf s (lf s y)).toNat := by
  rw [wfOf_eq, if_pos h1, if_pos h2, if_pos ⟨h3, h4⟩]

theorem wfOf_case2 (s : CState) (y : Nat) (h1 : y < s.nPhil)
    (h2 : phaseState (phOf s y) = PState.hungry)
    (h3 : holderOf s (lf s y) = Int.ofNat y) (h4 : holderOf s (rf s y) ≠ -1)
    (h5 : holderOf s (rf s y) ≠ Int.ofNat y) :
    wfOf s y = some (holderOf s (rf s y)).toNat := by
  rw [wfOf_eq, if_pos h1, if_pos h2, if_neg (fun hc => hc.1 h3), if_pos ⟨h3, h4, h5⟩]

/-- Inversion of a wait-for edge. -/
theorem wfOf_some_inv (s : CState) (z v : Nat) (h : wfOf s z = some v) :
    z < s.nPhil ∧ phaseState (phOf s z) = PState.hungry ∧
    ∃ fork, holderOf s fork ≠ -1 ∧ v = (holderOf s fork).toNat ∧
      ((fork = lf s z ∧ holderOf s fork ≠ Int.ofNat z) ∨
       (fork = rf s z ∧ holderOf s (lf s z) = Int.ofNat z ∧
         holderOf s fork ≠ Int.ofNat z)) := by
  rw [wfOf_eq] at h
  by_cases h1 : z < s.nPhil
  · rw [if_pos h1] at h
    by_cases h2 : phaseState (phOf s z) = PState.hungry
    · rw [if_pos h2] at h
      by_cases h3 : holderOf s (lf s z) ≠ Int.ofNat z ∧ holderOf s (lf s z) ≠ -1
      · rw [if_pos h3] at h
        have hv : (holderOf s (lf s z)).toNat = v := by injection h
        exact ⟨h1, h2, lf s z, h3.2, hv.symm, Or.inl ⟨rfl, h3.1⟩⟩
      · rw [if_neg h3] at h
        by_cases h4 : holderOf s (lf s z) = Int.ofNat z ∧ holderOf s (rf s z) ≠ -1 ∧
            holderOf s (rf s z) ≠ Int.ofNat z
        · rw [if_pos h4] at h
          have hv : (holderOf s (rf s z)).toNat = v := by injection h
          exact ⟨h1, h2, rf s z, h4.2.1, hv.symm, Or.inr ⟨rfl, h4.1, h4.2.2⟩⟩
        · rw [if_neg h4] at h
          cases h
    · rw [if_neg h2] at h
      cases h
  · rw [if_neg h1] at h
    cases h

/-- Wait-for edges are identical when the phase and the two fork holders an
agent reads are identical; the counts must agree as well. -/
theorem wfOf_congr (s t : CState) (y : Nat) (hn : t.nPhil = s.nPhil)
    (hp : phOf t y = phOf s y)
    (hl : holderOf t (lf t y) = holderOf s (lf s y))
    (hr : holderOf t (rf t y) = holderOf s (rf s y)) :
    wfOf t y = wfOf s y := by
  rw [wfOf_eq, wfOf_eq, hn, hp, hl, hr]

theorem phOf_lt (s : CState) (i : Nat) (h : phOf s i ≠ .thinking) :
    i < s.phases.length := by
  rcases Nat.lt_or_ge i s.phases.length with h1 | h1
  · exact h1
  · exfalso
    apply h
    unfold phOf
    exact List.getD_eq_default _ _ h1

theorem holder_owner (s : CState) (hInv : Inv s) (f : Nat) (h : holderOf s f ≠ -1) :
    ∃ w, w < s.nPhil ∧ holderOf s f = Int.ofNat w ∧ ownsF s w f := by
  rcases hInv.2.2.1 f with h1 | h2
  · exact absurd h1 h
  · exact h2

theorem inv_holders_ge (s : CState) (hInv : Inv s) : ∀ h ∈ s.holders, -1 ≤ h := by
  intro h hmem
  obtain ⟨f, hf, hfe⟩ := List.mem_iff_getElem.mp hmem
  have hgd : holderOf s f = h := by
    unfold holderOf
    rw [List.getD_eq_getElem _ _ hf]
    exact hfe
  rcases hInv.2.2.1 f with h1 | ⟨w, _, h2, _⟩
  · rw [hgd] at h1
    omega
  · rw [hgd] at h2
    rw [h2]
    simp only [Int.ofNat_eq_natCast]
    omega

theorem availSpec_getD (nForks : Nat) (holders : List Int) (f : Nat) :
    (availSpec nForks holders).getD f false =
      if f < nForks then (holders.getD f (-1) == -1) else false := by
  unfold availSpec
  by_cases hf : f < nForks
  · rw [if_pos hf]
    rw [List.getD_eq_getElem _ _ (by simpa using hf)]
    simp
  · rw [if_neg hf]
    exact List.getD_eq_default _ _ (by simpa using (by omega : nForks ≤ f))

theorem needSpec_getD (nPhil nForks : Nat) (holders : List Int) (y : Nat) (hy : y < nPhil) :
    (needSpec nPhil nForks holders).getD y 0 =
      2 - Int.ofNat ((List.range nForks).countP
        (fun f => holders.getD f (-1) == Int.ofNat y)) := by
  unfold needSpec
  rw [List.getD_eq_getElem _ _ (by simpa using hy)]
  simp

theorem countP_le_one_of_unique {α : Type} [DecidableEq α] (p : α → Bool) (c : α) :
    ∀ (l : List α), l.Nodup → (∀ x ∈ l, p x = true → x = c) → l.countP p ≤ 1 := by
  intro l
  induction l with
  | nil => intro _ _; simp
  | cons x xs ih =>
    intro hnd hp
    have hnd2 : xs.Nodup := (List.nodup_cons.mp hnd).2
    have hxnot : x ∉ xs := (List.nodup_cons.mp hnd).1
    rw [List.countP_cons]
    by_cases hx : p x = true
    · have hxc : x = c := hp x (List.mem_cons_self x xs) hx
      have hxs : xs.countP p = 0 := by
        rw [List.countP_eq_zero]
        intro y hy hpy
        have hyc : y = c := hp y (List.mem_cons_of_mem x hy) hpy
        rw [hxc] at hxnot
        rw [hyc] at hy
        exact absurd hy hxnot
      rw [hxs, hx]
      simp
    · have h0 : (if p x then 1 else 0) = 0 := by rw [if_neg hx]
      rw [h0]
      have := ih hnd2 (fun y hy hpy => hp y (List.mem_cons_of_mem x hy) hpy)
      omega

theorem rp_true_free (nPhil nForks : Nat) (holders : List Int) (states : List PState)
    (waits : List Nat) (strat : Strategy) (a r : Nat)
    (h : request_permission nPhil nForks holders states waits strat a r = true) :
    holders.getD r (-1) = -1 := by
  unfold request_permission at h
  by_cases h1 : (holders.getD r (-1) != -1) = true
  · rw [if_pos h1] at h
    cases h
  · rw [bne_iff_ne] at h1
    exact not_not.mp h1

theorem rp_true_safe (nPhil nForks : Nat) (holders : List Int) (states : List PState)
    (waits : List Nat) (a r : Nat)
    (h : request_permission nPhil nForks holders states waits .banker a r = true) :
    is_safe_state nPhil nForks holders a r = true := by
  unfold request_permission at h
  split_ifs at h
  exact h

theorem initAvailNeed_fst_length (nPhil nForks : Nat) (holders : List Int) :
    (initAvailNeed nPhil nForks holders).1.length = nForks := by
  unfold initAvailNeed
  have key : ∀ (l : List Nat) (p : List Bool × List Int), p.1.length = nForks →
      (l.foldl (fun (p : List Bool × List Int) i =>
        if holders.getD i (-1) != -1 then
          (p.1.set i false,
           p.2.set (holders.getD i (-1)).toNat (p.2.getD (holders.getD i (-1)).toNat 0 - 1))
        else p) p).1.length = nForks := by
    intro l
    induction l with
    | nil => intro p hp; exact hp
    | cons x xs ih =>
      intro p hp
      rw [List.foldl_cons]
      apply ih
      by_cases hx : (holders.getD x (-1) != -1) = true
      · rw [if_pos hx]
        simpa using hp
      · rw [if_neg hx]
        exact hp
  exact key (List.range nForks) _ (by simp)

theorem is_safe_r_lt (nPhil nForks : Nat) (holders : List Int) (a r : Nat)
    (h : is_safe_state nPhil nForks holders a r = true) : r < nForks := by
  by_contra hge
  unfold is_safe_state is_safe_stateO at h
  have hgd : (initAvailNeed nPhil nForks holders).1.getD r false = false :=
    List.getD_eq_default _ _ (by rw [initAvailNeed_fst_length]; omega)
  rw [if_pos hgd] at h
  cases h

theorem holderOf_upd (s : CState) (P : List Phase) (H : List Int) (W : List Nat) (f : Nat) :
    holderOf ⟨s.nPhil, s.nForks, P, H, W⟩ f = H.getD f (-1) := rfl

theorem phOf_upd (s : CState) (P : List Phase) (H : List Int) (W : List Nat) (i : Nat) :
    phOf ⟨s.nPhil, s.nForks, P, H, W⟩ i = P.getD i .thinking := rfl

theorem lf_upd (s : CState) (P : List Phase) (H : List Int) (W : List Nat) (i : Nat) :
    lf ⟨s.nPhil, s.nForks, P, H, W⟩ i = lf s i := rfl

theorem rf_upd (s : CState) (P : List Phase) (H : List Int) (W : List Nat) (i : Nat) :
    rf ⟨s.nPhil, s.nForks, P, H, W⟩ i = rf s i := rfl

theorem ownsF_upd (s : CState) (P : List Phase) (H : List Int) (W : List Nat) (w f : Nat) :
    ownsF ⟨s.nPhil, s.nForks, P, H, W⟩ w f ↔
      ((P.getD w .thinking = .holdL ∧ f = lf s w) ∨
       (P.getD w .thinking = .eating ∧ (f = lf s w ∨ f = rf s w)) ∨
       (P.getD w .thinking = .releasedR ∧ f = lf s w)) := Iff.rfl

theorem ownsF_not_of_phase (s : CState) (w : Nat)
    (h : s.phases.getD w .thinking = .thinking ∨ s.phases.getD w .thinking = .hungryIdle ∨
      s.phases.getD w .thinking = .permL ∨ s.phases.getD w .thinking = .permR) :
    ∀ f, ¬ ownsF s w f := by
  intro f hc
  unfold ownsF at hc
  rcases h with h | h | h | h <;> rw [h] at hc <;>
    rcases hc with ⟨h1, _⟩ | ⟨h1, _⟩ | ⟨h1, _⟩ <;> cases h1

theorem inv_acquireLeft (s : CState) (i : Nat) (hInv : Inv s)
    (hph : s.phases.getD i .thinking = .hungryIdle)
    (hrp : rpOf s i (lf s i) = true) :
    Inv ⟨s.nPhil, s.nForks, s.phases.set i .holdL,
      s.holders.set (lf s i) (Int.ofNat i), s.waits⟩ := by
  obtain ⟨hlenP, hlenH, hOwn, hOwn2, hDist⟩ := hInv
  have hiP : i < s.phases.length :=
    phOf_lt s i (by show s.phases.getD i .thinking ≠ .thinking; rw [hph]; decide)
  have hiN : i < s.nPhil := by omega
  unfold rpOf at hrp
  have hfree : s.holders.getD (lf s i) (-1) = -1 :=
    rp_true_free s.nPhil s.nForks s.holders (statesOf s) s.waits .banker i (lf s i) hrp
  have hsafe : is_safe_state s.nPhil s.nForks s.holders i (lf s i) = true :=
    rp_true_safe s.nPhil s.nForks s.holders (statesOf s) s.waits i (lf s i) hrp
  have hrlt : lf s i < s.nForks := is_safe_r_lt _ _ _ _ _ hsafe
  have hrltH : lf s i < s.holders.length := by omega
  refine ⟨?_, ?_, ?_, ?_, ?_⟩
  · show (s.phases.set i Phase.holdL).length = s.nPhil
    rw [List.length_set]
    exact hlenP
  · show (s.holders.set (lf s i) (Int.ofNat i)).length = s.nForks
    rw [List.length_set]
    exact hlenH
  · intro f
    rw [holderOf_upd]
    by_cases hf : f = lf s i
    · subst hf
      right
      refine ⟨i, hiN, getD_set_self _ _ _ _ hrltH, ?_⟩
      rw [ownsF_upd]
      left
      exact ⟨getD_set_self _ _ _ _ hiP, rfl⟩
    · rw [getD_set_ne _ _ _ _ _ (fun hc => hf hc.symm)]
      rcases hOwn f with h1 | ⟨w, hw, hwe, hwo⟩
      · left
        exact h1
      · right
        refine ⟨w, hw, hwe, ?_⟩
        have hwi : w ≠ i := by
          intro hc
          subst hc
          exact ownsF_not_of_phase s w (Or.inr (Or.inl hph)) f hwo
        rw [ownsF_upd]
        unfold ownsF at hwo
        rwa [getD_set_ne _ _ _ _ _ (fun hc => hwi hc.symm)]
  · intro w f hwo
    rw [ownsF_upd] at hwo
    rw [holderOf_upd]
    by_cases hwi : w = i
    · subst hwi
      rcases hwo with ⟨h1, h2⟩ | ⟨h1, _⟩ | ⟨h1, _⟩
      · subst h2
        exact getD_set_self _ _ _ _ hrltH
      · rw [getD_set_self _ _ _ _ hiP] at h1
        cases h1
      · rw [getD_set_self _ _ _ _ hiP] at h1
        cases h1
    · rw [getD_set_ne _ _ _ _ _ (fun hc => hwi hc.symm)] at hwo
      have hso : ownsF s w f := hwo
      have := hOwn2 w f hso
      have hfne : f ≠ lf s i := by
        intro hc
        subst hc
        have h2 : holderOf s (lf s i) = -1 := hfree
        rw [h2] at this
        cases this
      rw [getD_set_ne _ _ _ _ _ (fun hc => hfne hc.symm)]
      exact this
  · intro w hw
    by_cases hwi : w = i
    · subst hwi
      exfalso
      rcases hw with hw | hw <;>
        · have : (s.phases.set w Phase.holdL).getD w .thinking = Phase.holdL :=
            getD_set_self _ _ _ _ hiP
          rw [this] at hw
          cases hw
    · have hsame : (s.phases.set i Phase.holdL).getD w .thinking =
          s.phases.getD w .thinking := getD_set_ne _ _ _ _ _ (fun hc => hwi hc.symm)
      rw [hsame] at hw
      exact hDist w hw

theorem inv_toHungry (s : CState) (i : Nat) (hInv : Inv s) (hiN : i < s.nPhil)
    (hph : s.phases.getD i .thinking = .thinking) :
    Inv ⟨s.nPhil, s.nForks, s.phases.set i .hungryIdle, s.holders, s.waits.set i 0⟩ := by
  obtain ⟨hlenP, hlenH, hOwn, hOwn2, hDist⟩ := hInv
  have hiP : i < s.phases.length := by omega
  refine ⟨?_, hlenH, ?_, ?_, ?_⟩
  · show (s.phases.set i Phase.hungryIdle).length = s.nPhil
    rw [List.length_set]
    exact hlenP
  · intro f
    rw [holderOf_upd]
    rcases hOwn f with h1 | ⟨w, hw, hwe, hwo⟩
    · exact Or.inl h1
    · right
      refine ⟨w, hw, hwe, ?_⟩
      have hwi : w ≠ i := by
        intro hc
        subst hc
        exact ownsF_not_of_phase s w (Or.inl hph) f hwo
      rw [ownsF_upd]
      unfold ownsF at hwo
      rwa [getD_set_ne _ _ _ _ _ (fun hc => hwi hc.symm)]
  · intro w f hwo
    rw [ownsF_upd] at hwo
    rw [holderOf_upd]
    by_cases hwi : w = i
    · subst hwi
      exfalso
      rcases hwo with ⟨h1, _⟩ | ⟨h1, _⟩ | ⟨h1, _⟩ <;>
        · rw [getD_set_self _ _ _ _ hiP] at h1
          cases h1
    · rw [getD_set_ne _ _ _ _ _ (fun hc => hwi hc.symm)] at hwo
      exact hOwn2 w f hwo
  · intro w hw
    by_cases hwi : w = i
    · subst hwi
      exfalso
      rcases hw with hw | hw <;>
        · rw [getD_set_self _ _ _ _ hiP] at hw
          cases hw
    · have hsame : (s.phases.set i Phase.hungryIdle).getD w .thinking =
          s.phases.getD w .thinking := getD_set_ne _ _ _ _ _ (fun hc => hwi hc.symm)
      rw [hsame] at hw
      exact hDist w hw

theorem inv_acquireLeftDenied (s : CState) (i : Nat) (hInv : Inv s) :
    Inv ⟨s.nPhil, s.nForks, s.phases, s.holders, s.waits.set i (s.waits.getD i 0 + 1)⟩ :=
  hInv

theorem inv_acquireRight (s : CState) (i : Nat) (hInv : Inv s)
    (hph : s.phases.getD i .thinking = .holdL)
    (hrp : rpOf s i (rf s i) = true) :
    Inv ⟨s.nPhil, s.nForks, s.phases.set i .eating,
      s.holders.set (rf s i) (Int.ofNat i), s.waits.set i 0⟩ := by
  obtain ⟨hlenP, hlenH, hOwn, hOwn2, hDist⟩ := hInv
  have hiP : i < s.phases.length :=
    phOf_lt s i (by show s.phases.getD i .thinking ≠ .thinking; rw [hph]; decide)
  have hiN : i < s.nPhil := by omega
  unfold rpOf at hrp
  have hfree : s.holders.getD (rf s i) (-1) = -1 :=
    rp_true_free s.nPhil s.nForks s.holders (statesOf s) s.waits .banker i (rf s i) hrp
  have hsafe : is_safe_state s.nPhil s.nForks s.holders i (rf s i) = true :=
    rp_true_safe s.nPhil s.nForks s.holders (statesOf s) s.waits i (rf s i) hrp
  have hrlt : rf s i < s.nForks := is_safe_r_lt _ _ _ _ _ hsafe
  have hrltH : rf s i < s.holders.length := by omega
  have hownL : holderOf s (lf s i) = Int.ofNat i := hOwn2 i (lf s i) (Or.inl ⟨hph, rfl⟩)
  have hLR : lf s i ≠ rf s i := by
    intro hc
    have h2 : holderOf s (rf s i) = -1 := hfree
    rw [hc, h2] at hownL
    cases hownL
  refine ⟨?_, ?_, ?_, ?_, ?_⟩
  · show (s.phases.set i Phase.eating).length = s.nPhil
    rw [List.length_set]
    exact hlenP
  · show (s.holders.set (rf s i) (Int.ofNat i)).length = s.nForks
    rw [List.length_set]
    exact hlenH
  · intro f
    rw [holderOf_upd]
    by_cases hf : f = rf s i
    · subst hf
      right
      refine ⟨i, hiN, getD_set_self _ _ _ _ hrltH, ?_⟩
      rw [ownsF_upd]
      right
      left
      exact ⟨getD_set_self _ _ _ _ hiP, Or.inr rfl⟩
    · rw [getD_set_ne _ _ _ _ _ (fun hc => hf hc.symm)]
      rcases hOwn f with h1 | ⟨w, hw, hwe, hwo⟩
      · exact Or.inl h1
      · right
        refine ⟨w, hw, hwe, ?_⟩
        by_cases hwi : w = i
        · subst hwi
          have hfl : f = lf s w := by
            unfold ownsF at hwo
            rcases hwo with ⟨_, h2⟩ | ⟨h1, _⟩ | ⟨h1, _⟩
            · exact h2
            · rw [hph] at h1
              cases h1
            · rw [hph] at h1
              cases h1
          subst hfl
          rw [ownsF_upd]
          right
          left
          exact ⟨getD_set_self _ _ _ _ hiP, Or.inl rfl⟩
        · rw [ownsF_upd]
          unfold ownsF at hwo
          rwa [getD_set_ne _ _ _ _ _ (fun hc => hwi hc.symm)]
  · intro w f hwo
    rw [ownsF_upd] at hwo
    rw [holderOf_upd]
    by_cases hwi : w = i
    · subst hwi
      rcases hwo with ⟨h1, _⟩ | ⟨h1, h2⟩ | ⟨h1, _⟩
      · rw [getD_set_self _ _ _ _ hiP] at h1
        cases h1
      · rcases h2 with h2 | h2
        · subst h2
          rw [getD_set_ne _ _ _ _ _ (fun hc => hLR hc.symm)]
          exact hownL
        · subst h2
          exact getD_set_self _ _ _ _ hrltH
      · rw [getD_set_self _ _ _ _ hiP] at h1
        cases h1
    · rw [getD_set_ne _ _ _ _ _ (fun hc => hwi hc.symm)] at hwo
      have hso : ownsF s w f := hwo
      have hholds := hOwn2 w f hso
      have hfne : f ≠ rf s i := by
        intro hc
        subst hc
        have h2 : holderOf s (rf s i) = -1 := hfree
        rw [h2] at hholds
        cases hholds
      rw [getD_set_ne _ _ _ _ _ (fun hc => hfne hc.symm)]
      exact hholds
  · intro w hw
    by_cases hwi : w = i
    · subst hwi
      exact hLR
    · have hsame : (s.phases.set i Phase.eating).getD w .thinking =
          s.phases.getD w .thinking := getD_set_ne _ _ _ _ _ (fun hc => hwi hc.symm)
      rw [hsame] at hw
      exact hDist w hw

theorem inv_acquireRightDenied (s : CState) (i : Nat) (hInv : Inv s)
    (hph : s.phases.getD i .thinking = .holdL) :
    Inv ⟨s.nPhil, s.nForks, s.phases.set i .hungryIdle,
      s.holders.set (lf s i) (-1), s.waits.set i (s.waits.getD i 0 + 1)⟩ := by
  obtain ⟨hlenP, hlenH, hOwn, hOwn2, hDist⟩ := hInv
  have hiP : i < s.phases.length :=
    phOf_lt s i (by show s.phases.getD i .thinking ≠ .thinking; rw [hph]; decide)
  have hownL : holderOf s (lf s i) = Int.ofNat i := hOwn2 i (lf s i) (Or.inl ⟨hph, rfl⟩)
  have hlfH : lf s i < s.holders.length := by
    rcases Nat.lt_or_ge (lf s i) s.holders.length with h | h
    · exact h
    · exfalso
      have : holderOf s (lf s i) = -1 := List.getD_eq_default _ _ h
      rw [this] at hownL
      cases hownL
  refine ⟨?_, ?_, ?_, ?_, ?_⟩
  · show (s.phases.set i Phase.hungryIdle).length = s.nPhil
    rw [List.length_set]
    exact hlenP
  · show (s.holders.set (lf s i) (-1)).length = s.nForks
    rw [List.length_set]
    exact hlenH
  · intro f
    rw [holderOf_upd]
    by_cases hf : f = lf s i
    · subst hf
      left
      exact getD_set_self _ _ _ _ hlfH
    · rw [getD_set_ne _ _ _ _ _ (fun hc => hf hc.symm)]
      rcases hOwn f with h1 | ⟨w, hw, hwe, hwo⟩
      · exact Or.inl h1
      · right
        refine ⟨w, hw, hwe, ?_⟩
        have hwi : w ≠ i := by
          intro hc
          subst hc
          unfold ownsF at hwo
          rcases hwo with ⟨_, h2⟩ | ⟨h1, _⟩ | ⟨h1, _⟩
          · exact hf h2
          · rw [hph] at h1
            cases h1
          · rw [hph] at h1
            cases h1
        rw [ownsF_upd]
        unfold ownsF at hwo
        rwa [getD_set_ne _ _ _ _ _ (fun hc => hwi hc.symm)]
  · intro w f hwo
    rw [ownsF_upd] at hwo
    rw [holderOf_upd]
    by_cases hwi : w = i
    · subst hwi
      exfalso
      rcases hwo with ⟨h1, _⟩ | ⟨h1, _⟩ | ⟨h1, _⟩ <;>
        · rw [getD_set_self _ _ _ _ hiP] at h1
          cases h1
    · rw [getD_set_ne _ _ _ _ _ (fun hc => hwi hc.symm)] at hwo
      have hso : ownsF s w f := hwo
      have hholds := hOwn2 w f hso
      have hfne : f ≠ lf s i := by
        intro hc
        subst hc
        rw [hownL] at hholds
        have : w = i := by
          have := Int.ofNat.inj hholds.symm
          omega
        exact hwi this
      rw [getD_set_ne _ _ _ _ _ (fun hc => hfne hc.symm)]
      exact hholds
  · intro w hw
    by_cases hwi : w = i
    · subst hwi
      exfalso
      rcases hw with hw | hw <;>
        · rw [getD_set_self _ _ _ _ hiP] at hw
          cases hw
    · have hsame : (s.phases.set i Phase.hungryIdle).getD w .thinking =
          s.phases.getD w .thinking := getD_set_ne _ _ _ _ _ (fun hc => hwi hc.symm)
      rw [hsame] at hw
      exact hDist w hw

theorem inv_releaseRight (s : CState) (i : Nat) (hInv : Inv s)
    (hph : s.phases.getD i .thinking = .eating) :
    Inv ⟨s.nPhil, s.nForks, s.phases.set i .releasedR,
      s.holders.set (rf s i) (-1), s.waits⟩ := by
  obtain ⟨hlenP, hlenH, hOwn, hOwn2, hDist⟩ := hInv
  have hiP : i < s.phases.length :=
    phOf_lt s i (by show s.phases.getD i .thinking ≠ .thinking; rw [hph]; decide)
  have hownL : holderOf s (lf s i) = Int.ofNat i :=
    hOwn2 i (lf s i) (Or.inr (Or.inl ⟨hph, Or.inl rfl⟩))
  have hownR : holderOf s (rf s i) = Int.ofNat i :=
    hOwn2 i (rf s i) (Or.inr (Or.inl ⟨hph, Or.inr rfl⟩))
  have hLR : lf s i ≠ rf s i := hDist i (Or.inl hph)
  have hrfH : rf s i < s.holders.length := by
    rcases Nat.lt_or_ge (rf s i) s.holders.length with h | h
    · exact h
    · exfalso
      have : holderOf s (rf s i) = -1 := List.getD_eq_default _ _ h
      rw [this] at hownR
      cases hownR
  refine ⟨?_, ?_, ?_, ?_, ?_⟩
  · show (s.phases.set i Phase.releasedR).length = s.nPhil
    rw [List.length_set]
    exact hlenP
  · show (s.holders.set (rf s i) (-1)).length = s.nForks
    rw [List.length_set]
    exact hlenH
  · intro f
    rw [holderOf_upd]
    by_cases hf : f = rf s i
    · subst hf
      left
      exact getD_set_self _ _ _ _ hrfH
    · rw [getD_set_ne _ _ _ _ _ (fun hc => hf hc.symm)]
      rcases hOwn f with h1 | ⟨w, hw, hwe, hwo⟩
      · exact Or.inl h1
      · right
        refine ⟨w, hw, hwe, ?_⟩
        by_cases hwi : w = i
        · subst hwi
          have hfl : f = lf s w := by
            unfold ownsF at hwo
            rcases hwo with ⟨h1, _⟩ | ⟨_, h2 | h2⟩ | ⟨h1, _⟩
            · rw [hph] at h1
              cases h1
            · exact h2
            · exact absurd h2 hf
            · rw [hph] at h1
              cases h1
          subst hfl
          rw [ownsF_upd]
          right
          right
          exact ⟨getD_set_self _ _ _ _ hiP, rfl⟩
        · rw [ownsF_upd]
          unfold ownsF at hwo
          rwa [getD_set_ne _ _ _ _ _ (fun hc => hwi hc.symm)]
  · intro w f hwo
    rw [ownsF_upd] at hwo
    rw [holderOf_upd]
    by_cases hwi : w = i
    · subst hwi
      rcases hwo with ⟨h1, _⟩ | ⟨h1, _⟩ | ⟨h1, h2⟩
      · rw [getD_set_self _ _ _ _ hiP] at h1
        cases h1
      · rw [getD_set_self _ _ _ _ hiP] at h1
        cases h1
      · subst h2
        rw [getD_set_ne _ _ _ _ _ (fun hc => hLR hc.symm)]
        exact hownL
    · rw [getD_set_ne _ _ _ _ _ (fun hc => hwi hc.symm)] at hwo
      have hso : ownsF s w f := hwo
      have hholds := hOwn2 w f hso
      have hfne : f ≠ rf s i := by
        intro hc
        subst hc
        rw [hownR] at hholds
        have : w = i := by
          have := Int.ofNat.inj hholds.symm
          omega
        exact hwi this
      rw [getD_set_ne _ _ _ _ _ (fun hc => hfne hc.symm)]
      exact hholds
  · intro w hw
    by_cases hwi : w = i
    · subst hwi
      exact hLR
    · have hsame : (s.phases.set i Phase.releasedR).getD w .thinking =
          s.phases.getD w .thinking := getD_set_ne _ _ _ _ _ (fun hc => hwi hc.symm)
      rw [hsame] at hw
      exact hDist w hw

theorem inv_releaseLeft (s : CState) (i : Nat) (hInv : Inv s)
    (hph : s.phases.getD i .thinking = .releasedR) :
    Inv ⟨s.nPhil, s.nForks, s.phases.set i .thinking,
      s.holders.set (lf s i) (-1), s.waits⟩ := by
  obtain ⟨hlenP, hlenH, hOwn, hOwn2, hDist⟩ := hInv
  have hiP : i < s.phases.length :=
    phOf_lt s i (by show s.phases.getD i .thinking ≠ .thinking; rw [hph]; decide)
  have hownL : holderOf s (lf s i) = Int.ofNat i :=
    hOwn2 i (lf s i) (Or.inr (Or.inr ⟨hph, rfl⟩))
  have hlfH : lf s i < s.holders.length := by
    rcases Nat.lt_or_ge (lf s i) s.holders.length with h | h
    · exact h
    · exfalso
      have : holderOf s (lf s i) = -1 := List.getD_eq_default _ _ h
      rw [this] at hownL
      cases hownL
  refine ⟨?_, ?_, ?_, ?_, ?_⟩
  · show (s.phases.set i Phase.thinking).length = s.nPhil
    rw [List.length_set]
    exact hlenP
  · show (s.holders.set (lf s i) (-1)).length = s.nForks
    rw [List.length_set]
    exact hlenH
  · intro f
    rw [holderOf_upd]
    by_cases hf : f = lf s i
    · subst hf
      left
      exact getD_set_self _ _ _ _ hlfH
    · rw [getD_set_ne _ _ _ _ _ (fun hc => hf hc.symm)]
      rcases hOwn f with h1 | ⟨w, hw, hwe, hwo⟩
      · exact Or.inl h1
      · right
        refine ⟨w, hw, hwe, ?_⟩
        have hwi : w ≠ i := by
          intro hc
          subst hc
          unfold ownsF at hwo
          rcases hwo with ⟨h1, _⟩ | ⟨h1, _⟩ | ⟨_, h2⟩
          · rw [hph] at h1
            cases h1
          · rw [hph] at h1
            cases h1
          · exact hf h2
        rw [ownsF_upd]
        unfold ownsF at hwo
        rwa [getD_set_ne _ _ _ _ _ (fun hc => hwi hc.symm)]
  · intro w f hwo
    rw [ownsF_upd] at hwo
    rw [holderOf_upd]
    by_cases hwi : w = i
    · subst hwi
      exfalso
      rcases hwo with ⟨h1, _⟩ | ⟨h1, _⟩ | ⟨h1, _⟩ <;>
        · rw [getD_set_self _ _ _ _ hiP] at h1
          cases h1
    · rw [getD_set_ne _ _ _ _ _ (fun hc => hwi hc.symm)] at hwo
      have hso : ownsF s w f := hwo
      have hholds := hOwn2 w f hso
      have hfne : f ≠ lf s i := by
        intro hc
        subst hc
        rw [hownL] at hholds
        have : w = i := by
          have := Int.ofNat.inj hholds.symm
          omega
        exact hwi this
      rw [getD_set_ne _ _ _ _ _ (fun hc => hfne hc.symm)]
      exact hholds
  · intro w hw
    by_cases hwi : w = i
    · subst hwi
      exfalso
      rcases hw with hw | hw <;>
        · rw [getD_set_self _ _ _ _ hiP] at hw
          cases hw
    · have hsame : (s.phases.set i Phase.thinking).getD w .thinking =
          s.phases.getD w .thinking := getD_set_ne _ _ _ _ _ (fun hc => hwi hc.symm)
      rw [hsame] at hw
      exact hDist w hw

/-- The protocol invariant is preserved by every atomic-grant step. -/
theorem inv_step (s t : CState) (hstep : AStep s t) (hInv : Inv s) : Inv t := by
  cases hstep with
  | toHungry i hiN hph => exact inv_toHungry s i hInv hiN hph
  | acquireLeft i hph hrp => exact inv_acquireLeft s i hInv hph hrp
  | acquireLeftDenied i hph hrp => exact inv_acquireLeftDenied s i hInv
  | acquireRight i hph hrp => exact inv_acquireRight s i hInv hph hrp
  | acquireRightDenied i hph hrp => exact inv_acquireRightDenied s i hInv hph
  | releaseRight i hph => exact inv_releaseRight s i hInv hph
  | releaseLeft i hph => exact inv_releaseLeft s i hInv hph

theorem wfOf_none_of_not_hungry (t : CState) (i : Nat)
    (h : phaseState (phOf t i) ≠ PState.hungry) : wfOf t i = none := by
  rw [wfOf_eq]
  by_cases h1 : i < t.nPhil
  · rw [if_pos h1, if_neg h]
  · rw [if_neg h1]

theorem wfOf_none_of_left_free (t : CState) (i : Nat)
    (h : holderOf t (lf t i) = -1) : wfOf t i = none := by
  rw [wfOf_eq]
  by_cases h1 : i < t.nPhil
  · rw [if_pos h1]
    by_cases h2 : phaseState (phOf t i) = PState.hungry
    · rw [if_pos h2, if_neg (fun hc => hc.2 h), if_neg ?_]
      intro hc
      rw [h] at hc
      cases hc.1
    · rw [if_neg h2]
  · rw [if_neg h1]

/-- Releasing a fork held by agent `i` creates no wait-for edge for any
other agent that did not already exist. -/
theorem release_edge (s : CState) (i : Nat) (ph2 : Phase) (f0 : Nat) (W : List Nat)
    (hheld : holderOf s f0 = Int.ofNat i) (y v : Nat) (hy : y ≠ i)
    (hedge : wfOf ⟨s.nPhil, s.nForks, s.phases.set i ph2,
      s.holders.set f0 (-1), W⟩ y = some v) :
    wfOf s y = some v := by
  have hf0H : f0 < s.holders.length := by
    rcases Nat.lt_or_ge f0 s.holders.length with h | h
    · exact h
    · exfalso
      have h2 : holderOf s f0 = -1 := List.getD_eq_default _ _ h
      rw [h2] at hheld
      cases hheld
  obtain ⟨hylt, hhun, fork, hne, hv, hcase⟩ := wfOf_some_inv _ y v hedge
  have hphy : phOf ⟨s.nPhil, s.nForks, s.phases.set i ph2, s.holders.set f0 (-1), W⟩ y =
      phOf s y := by
    rw [phOf_upd]
    exact getD_set_ne _ _ _ _ _ (fun hc => hy hc.symm)
  rw [hphy] at hhun
  have hget : ∀ f, f ≠ f0 →
      holderOf ⟨s.nPhil, s.nForks, s.phases.set i ph2, s.holders.set f0 (-1), W⟩ f =
        holderOf s f := by
    intro f hf
    rw [holderOf_upd]
    exact getD_set_ne _ _ _ _ _ (fun hc => hf hc.symm)
  have hgetf0 : holderOf ⟨s.nPhil, s.nForks, s.phases.set i ph2,
      s.holders.set f0 (-1), W⟩ f0 = -1 := by
    rw [holderOf_upd]
    exact getD_set_self _ _ _ _ hf0H
  rcases hcase with ⟨hfk, hcond⟩ | ⟨hfk, hcl, hcond⟩
  · have hlf : fork = lf s y := hfk
    have hfne : fork ≠ f0 := by
      intro hc
      rw [hc, hgetf0] at hne
      exact hne rfl
    rw [hget fork hfne] at hne hv hcond
    rw [hlf] at hne hv hcond
    rw [wfOf_case1 s y hylt hhun hcond hne, ← hv]
  · have hrf : fork = rf s y := hfk
    have hlfne : lf s y ≠ f0 := by
      intro hc
      have := hcl
      rw [show lf ⟨s.nPhil, s.nForks, s.phases.set i ph2, s.holders.set f0 (-1), W⟩ y =
        lf s y from rfl, hc, hgetf0] at this
      cases this
    have hcl2 : holderOf s (lf s y) = Int.ofNat y := by
      rw [← hget (lf s y) hlfne]
      exact hcl
    have hfne : fork ≠ f0 := by
      intro hc
      rw [hc, hgetf0] at hne
      exact hne rfl
    rw [hget fork hfne] at hne hv hcond
    rw [hrf] at hne hv hcond
    rw [wfOf_case2 s y hylt hhun hcl2 hne hcond, ← hv]

theorem nocycle_toHungry (s : CState) (i : Nat) (hInv : Inv s)
    (hph : s.phases.getD i .thinking = .thinking)
    (hpre : ¬ HasCycleF s.nPhil (wfOf s)) :
    ¬ HasCycleF s.nPhil (wfOf ⟨s.nPhil, s.nForks, s.phases.set i .hungryIdle,
      s.holders, s.waits.set i 0⟩) := by
  apply no_cycle_helperD s.nPhil (wfOf s) _ i hpre
  · intro y v hy hvy
    have heq : wfOf ⟨s.nPhil, s.nForks, s.phases.set i .hungryIdle,
        s.holders, s.waits.set i 0⟩ y = wfOf s y := by
      apply wfOf_congr s ⟨s.nPhil, s.nForks, s.phases.set i .hungryIdle,
        s.holders, s.waits.set i 0⟩ y rfl
      · rw [phOf_upd]
        exact getD_set_ne _ _ _ _ _ (fun hc => hy hc.symm)
      · rfl
      · rfl
    rw [heq] at hvy
    exact hvy
  · intro z hz
    obtain ⟨hzlt, hhun, fork, hne, hv, hcase⟩ := wfOf_some_inv _ z i hz
    have hts : holderOf ⟨s.nPhil, s.nForks, s.phases.set i .hungryIdle,
        s.holders, s.waits.set i 0⟩ fork = holderOf s fork := rfl
    rw [hts] at hne hv
    obtain ⟨w, hw, hwe, hwo⟩ := holder_owner s hInv fork hne
    have hiw : i = w := by
      rw [hwe] at hv
      simpa using hv
    subst hiw
    exact ownsF_not_of_phase s i (Or.inl hph) fork hwo

theorem nocycle_acquireRight (s : CState) (i : Nat) (hInv : Inv s)
    (hph : s.phases.getD i .thinking = .holdL)
    (hrp : rpOf s i (rf s i) = true)
    (hpre : ¬ HasCycleF s.nPhil (wfOf s)) :
    ¬ HasCycleF s.nPhil (wfOf ⟨s.nPhil, s.nForks, s.phases.set i .eating,
      s.holders.set (rf s i) (Int.ofNat i), s.waits.set i 0⟩) := by
  have hiP : i < s.phases.length :=
    phOf_lt s i (by show s.phases.getD i .thinking ≠ .thinking; rw [hph]; decide)
  unfold rpOf at hrp
  have hfree : s.holders.getD (rf s i) (-1) = -1 :=
    rp_true_free s.nPhil s.nForks s.holders (statesOf s) s.waits .banker i (rf s i) hrp
  have hsafe : is_safe_state s.nPhil s.nForks s.holders i (rf s i) = true :=
    rp_true_safe s.nPhil s.nForks s.holders (statesOf s) s.waits i (rf s i) hrp
  have hrlt : rf s i < s.nForks := is_safe_r_lt _ _ _ _ _ hsafe
  have hrltH : rf s i < s.holders.length := by
    have := hInv.2.1
    omega
  have hget : ∀ f, f ≠ rf s i →
      holderOf ⟨s.nPhil, s.nForks, s.phases.set i .eating,
        s.holders.set (rf s i) (Int.ofNat i), s.waits.set i 0⟩ f = holderOf s f := by
    intro f hf
    rw [holderOf_upd]
    exact getD_set_ne _ _ _ _ _ (fun hc => hf hc.symm)
  have hgetr : holderOf ⟨s.nPhil, s.nForks, s.phases.set i .eating,
      s.holders.set (rf s i) (Int.ofNat i), s.waits.set i 0⟩ (rf s i) = Int.ofNat i := by
    rw [holderOf_upd]
    exact getD_set_self _ _ _ _ hrltH
  apply no_cycle_helperC s.nPhil (wfOf s) _ i hpre
  · intro y v hvy
    by_cases hy : y = i
    · exfalso
      subst hy
      have : wfOf ⟨s.nPhil, s.nForks, s.phases.set y .eating,
          s.holders.set (rf s y) (Int.ofNat y), s.waits.set y 0⟩ y = none := by
        apply wfOf_none_of_not_hungry
        rw [phOf_upd, getD_set_self _ _ _ _ hiP]
        decide
      rw [this] at hvy
      cases hvy
    · obtain ⟨hylt, hhun, fork, hne, hv, hcase⟩ := wfOf_some_inv _ y v hvy
      have hphy : phOf ⟨s.nPhil, s.nForks, s.phases.set i .eating,
          s.holders.set (rf s i) (Int.ofNat i), s.waits.set i 0⟩ y = phOf s y := by
        rw [phOf_upd]
        exact getD_set_ne _ _ _ _ _ (fun hc => hy hc.symm)
      rw [hphy] at hhun
      rcases hcase with ⟨hfk, hcond⟩ | ⟨hfk, hcl, hcond⟩
      · have hlf : fork = lf s y := hfk
        by_cases hff : fork = rf s i
        · right
          rw [hff, hgetr] at hv
          simpa using hv
        · left
          rw [hget fork hff] at hne hv hcond
          rw [hlf] at hne hv hcond
          rw [wfOf_case1 s y hylt hhun hcond hne, ← hv]
      · have hrfk : fork = rf s y := hfk
        have hlfne : lf s y ≠ rf s i := by
          intro hc
          have h2 := hcl
          rw [show lf ⟨s.nPhil, s.nForks, s.phases.set i .eating,
            s.holders.set (rf s i) (Int.ofNat i), s.waits.set i 0⟩ y = lf s y from rfl,
            hc, hgetr] at h2
          have : y = i := by
            have := Int.ofNat.inj h2.symm
            omega
          exact hy this
        have hcl2 : holderOf s (lf s y) = Int.ofNat y := by
          rw [← hget (lf s y) hlfne]
          exact hcl
        by_cases hff : fork = rf s i
        · right
          rw [hff, hgetr] at hv
          simpa using hv
        · left
          rw [hget fork hff] at hne hv hcond
          rw [hrfk] at hne hv hcond
          rw [wfOf_case2 s y hylt hhun hcl2 hne hcond, ← hv]
  · apply wfOf_none_of_not_hungry
    rw [phOf_upd, getD_set_self _ _ _ _ hiP]
    decide

theorem nocycle_acquireRightDenied (s : CState) (i : Nat) (hInv : Inv s)
    (hph : s.phases.getD i .thinking = .holdL)
    (hpre : ¬ HasCycleF s.nPhil (wfOf s)) :
    ¬ HasCycleF s.nPhil (wfOf ⟨s.nPhil, s.nForks, s.phases.set i .hungryIdle,
      s.holders.set (lf s i) (-1), s.waits.set i (s.waits.getD i 0 + 1)⟩) := by
  have hiP : i < s.phases.length :=
    phOf_lt s i (by show s.phases.getD i .thinking ≠ .thinking; rw [hph]; decide)
  have hownL : holderOf s (lf s i) = Int.ofNat i := hInv.2.2.2.1 i (lf s i) (Or.inl ⟨hph, rfl⟩)
  have hlfH : lf s i < s.holders.length := by
    rcases Nat.lt_or_ge (lf s i) s.holders.length with h | h
    · exact h
    · exfalso
      have h2 : holderOf s (lf s i) = -1 := List.getD_eq_default _ _ h
      rw [h2] at hownL
      cases hownL
  apply no_cycle_helperC s.nPhil (wfOf s) _ i hpre
  · intro y v hvy
    by_cases hy : y = i
    · exfalso
      subst hy
      have : wfOf ⟨s.nPhil, s.nForks, s.phases.set y .hungryIdle,
          s.holders.set (lf s y) (-1), s.waits.set y (s.waits.getD y 0 + 1)⟩ y = none := by
        apply wfOf_none_of_left_free
        rw [show lf ⟨s.nPhil, s.nForks, s.phases.set y .hungryIdle,
          s.holders.set (lf s y) (-1), s.waits.set y (s.waits.getD y 0 + 1)⟩ y =
            lf s y from rfl]
        rw [holderOf_upd]
        exact getD_set_self _ _ _ _ hlfH
      rw [this] at hvy
      cases hvy
    · exact Or.inl (release_edge s i .hungryIdle (lf s i) _ hownL y v hy hvy)
  · apply wfOf_none_of_left_free
    rw [show lf ⟨s.nPhil, s.nForks, s.phases.set i .hungryIdle,
      s.holders.set (lf s i) (-1), s.waits.set i (s.waits.getD i 0 + 1)⟩ i = lf s i from rfl]
    rw [holderOf_upd]
    exact getD_set_self _ _ _ _ hlfH

theorem nocycle_releaseRight (s : CState) (i : Nat) (hInv : Inv s)
    (hph : s.phases.getD i .thinking = .eating)
    (hpre : ¬ HasCycleF s.nPhil (wfOf s)) :
    ¬ HasCycleF s.nPhil (wfOf ⟨s.nPhil, s.nForks, s.phases.set i .releasedR,
      s.holders.set (rf s i) (-1), s.waits⟩) := by
  have hiP : i < s.phases.length :=
    phOf_lt s i (by show s.phases.getD i .thinking ≠ .thinking; rw [hph]; decide)
  have hownR : holderOf s (rf s i) = Int.ofNat i :=
    hInv.2.2.2.1 i (rf s i) (Or.inr (Or.inl ⟨hph, Or.inr rfl⟩))
  apply no_cycle_helperC s.nPhil (wfOf s) _ i hpre
  · intro y v hvy
    by_cases hy : y = i
    · exfalso
      subst hy
      have : wfOf ⟨s.nPhil, s.nForks, s.phases.set y .releasedR,
          s.holders.set (rf s y) (-1), s.waits⟩ y = none := by
        apply wfOf_none_of_not_hungry
        rw [phOf_upd, getD_set_self _ _ _ _ hiP]
        decide
      rw [this] at hvy
      cases hvy
    · exact Or.inl (release_edge s i .releasedR (rf s i) _ hownR y v hy hvy)
  · apply wfOf_none_of_not_hungry
    rw [phOf_upd, getD_set_self _ _ _ _ hiP]
    decide

theorem nocycle_releaseLeft (s : CState) (i : Nat) (hInv : Inv s)
    (hph : s.phases.getD i .thinking = .releasedR)
    (hpre : ¬ HasCycleF s.nPhil (wfOf s)) :
    ¬ HasCycleF s.nPhil (wfOf ⟨s.nPhil, s.nForks, s.phases.set i .thinking,
      s.holders.set (lf s i) (-1), s.waits⟩) := by
  have hiP : i < s.phases.length :=
    phOf_lt s i (by show s.phases.getD i .thinking ≠ .thinking; rw [hph]; decide)
  have hownL : holderOf s (lf s i) = Int.ofNat i :=
    hInv.2.2.2.1 i (lf s i) (Or.inr (Or.inr ⟨hph, rfl⟩))
  apply no_cycle_helperC s.nPhil (wfOf s) _ i hpre
  · intro y v hvy
    by_cases hy : y = i
    · exfalso
      subst hy
      have : wfOf ⟨s.nPhil, s.nForks, s.phases.set y .thinking,
          s.holders.set (lf s y) (-1), s.waits⟩ y = none := by
        apply wfOf_none_of_not_hungry
        rw [phOf_upd, getD_set_self _ _ _ _ hiP]
        decide
      rw [this] at hvy
      cases hvy
    · exact Or.inl (release_edge s i .thinking (lf s i) _ hownL y v hy hvy)
  · apply wfOf_none_of_not_hungry
    rw [phOf_upd, getD_set_self _ _ _ _ hiP]
    decide

theorem relStep1_getD (nPhil nForks : Nat) (holders : List Int) (j : Nat) (avail : List Bool)
    (g : Nat) (h : holders.getD (safetyLeft nPhil nForks j) (-1) = Int.ofNat j →
      safetyLeft nPhil nForks j ≠ g) :
    (relStep1 nPhil nForks holders j avail).getD g false = avail.getD g false := by
  unfold relStep1
  by_cases hc : (holders.getD (safetyLeft nPhil nForks j) (-1) == Int.ofNat j) = true
  · rw [if_pos hc]
    exact getD_set_ne _ _ _ _ _ (h (beq_iff_eq.mp hc))
  · rw [if_neg hc]

theorem relStep2_getD (nPhil nForks : Nat) (holders : List Int) (j : Nat) (avail : List Bool)
    (g : Nat) (h : holders.getD (safetyRight nPhil nForks j) (-1) = Int.ofNat j →
      safetyRight nPhil nForks j ≠ g) :
    (relStep2 nPhil nForks holders j avail).getD g false = avail.getD g false := by
  unfold relStep2
  by_cases hc : (holders.getD (safetyRight nPhil nForks j) (-1) == Int.ofNat j) = true
  · rw [if_pos hc]
    exact getD_set_ne _ _ _ _ _ (h (beq_iff_eq.mp hc))
  · rw [if_neg hc]

theorem relStep3_getD (nPhil nForks a r j : Nat) (avail : List Bool) (g : Nat)
    (h : j = a → safetyLeft nPhil nForks j = r → safetyLeft nPhil nForks j ≠ g) :
    (relStep3 nPhil nForks a r j avail).getD g false = avail.getD g false := by
  unfold relStep3
  by_cases hc : (j == a && (safetyLeft nPhil nForks j == r)) = true
  · rw [if_pos hc]
    rw [Bool.and_eq_true] at hc
    exact getD_set_ne _ _ _ _ _ (h (beq_iff_eq.mp hc.1) (beq_iff_eq.mp hc.2))
  · rw [if_neg hc]

theorem relStep4_getD (nPhil nForks a r j : Nat) (avail : List Bool) (g : Nat)
    (h : j = a → safetyRight nPhil nForks j = r → safetyRight nPhil nForks j ≠ g) :
    (relStep4 nPhil nForks a r j avail).getD g false = avail.getD g false := by
  unfold relStep4
  by_cases hc : (j == a && (safetyRight nPhil nForks j == r)) = true
  · rw [if_pos hc]
    rw [Bool.and_eq_true] at hc
    exact getD_set_ne _ _ _ _ _ (h (beq_iff_eq.mp hc.1) (beq_iff_eq.mp hc.2))
  · rw [if_neg hc]

/-- An obtainable-branch release never touches position `g` when `g` is
neither of the finisher's forks under the marking conditions. -/
theorem releaseAmend_getD (nPhil nForks : Nat) (holders : List Int) (a r : Nat)
    (avail : List Bool) (j g : Nat)
    (h1 : holders.getD (safetyLeft nPhil nForks j) (-1) = Int.ofNat j →
      safetyLeft nPhil nForks j ≠ g)
    (h2 : holders.getD (safetyRight nPhil nForks j) (-1) = Int.ofNat j →
      safetyRight nPhil nForks j ≠ g)
    (h3 : j = a → safetyLeft nPhil nForks j = r → safetyLeft nPhil nForks j ≠ g)
    (h4 : j = a → safetyRight nPhil nForks j = r → safetyRight nPhil nForks j ≠ g) :
    (releaseAmend nPhil nForks holders a r avail j).getD g false = avail.getD g false := by
  rw [← codeRelease_eq_releaseAmend]
  unfold codeRelease
  rw [relStep4_getD _ _ _ _ _ _ _ h4, relStep3_getD _ _ _ _ _ _ _ h3,
    relStep2_getD _ _ _ _ _ _ h2, relStep1_getD _ _ _ _ _ _ h1]

/-- One step of the amended completion scan keeps every member of `M`
unfinished and its left fork unavailable, provided members always have
remaining need 1, a member's right fork is never obtainable while the
members' left forks are unavailable, and a non-member's release never frees
a member's left fork. -/
theorem amendScanStep_pres (nPhil nForks : Nat) (holders : List Int) (a r : Nat)
    (need : List Int) (M : Nat → Prop)
    (hMneed : ∀ y, M y → need.getD y 0 = 1)
    (hMobt : ∀ y (avail : List Bool), M y →
      (∀ z, M z → avail.getD (specLeftFork nPhil nForks z) false = false) →
      obtainable holders avail a r y (specRightFork nPhil nForks y) = false)
    (hMrel : ∀ (j : Nat) (avail : List Bool), ¬ M j →
      (∀ z, M z → avail.getD (specLeftFork nPhil nForks z) false = false) →
      ∀ z, M z → (releaseAmend nPhil nForks holders a r avail j).getD
        (specLeftFork nPhil nForks z) false = false)
    (j : Nat) (q : List Bool × List Bool)
    (hfin : ∀ y, M y → q.1.getD y false = false)
    (hav : ∀ z, M z → q.2.getD (specLeftFork nPhil nForks z) false = false) :
    (∀ y, M y → (amendScanStep nPhil nForks holders a r need q j).1.getD y false = false) ∧
    (∀ z, M z → (amendScanStep nPhil nForks holders a r need q j).2.getD
      (specLeftFork nPhil nForks z) false = false) ∧
    (amendScanStep nPhil nForks holders a r need q j).1.length = q.1.length := by
  unfold amendScanStep
  by_cases h1 : q.1.getD j false = true
  · rw [if_pos h1]
    exact ⟨hfin, hav, rfl⟩
  · rw [if_neg h1]
    by_cases h2 : need.getD j 0 ≤ 0
    · rw [if_pos h2]
      refine ⟨?_, hav, by simp⟩
      intro y hy
      have hyj : y ≠ j := by
        intro hc
        have := hMneed y hy
        rw [hc] at this
        omega
      show (q.1.set j true).getD y false = false
      rw [getD_set_ne _ _ _ _ _ (fun hc => hyj hc.symm)]
      exact hfin y hy
    · rw [if_neg h2]
      by_cases h3 : (obtainable holders q.2 a r j (specLeftFork nPhil nForks j) &&
          obtainable holders q.2 a r j (specRightFork nPhil nForks j)) = true
      · rw [if_pos h3]
        have hMj : ¬ M j := by
          intro hMj
          have hfalse := hMobt j q.2 hMj hav
          rw [Bool.and_eq_true] at h3
          rw [h3.2] at hfalse
          cases hfalse
        refine ⟨?_, ?_, by simp⟩
        · intro y hy
          have hyj : y ≠ j := fun hc => hMj (hc ▸ hy)
          show (q.1.set j true).getD y false = false
          rw [getD_set_ne _ _ _ _ _ (fun hc => hyj hc.symm)]
          exact hfin y hy
        · intro z hz
          show (releaseAmend nPhil nForks holders a r q.2 j).getD
            (specLeftFork nPhil nForks z) false = false
          exact hMrel j q.2 hMj hav z hz
      · rw [if_neg h3]
        exact ⟨hfin, hav, rfl⟩

/-- The scan-pass fold preserves the member conditions of
`amendScanStep_pres`. -/
theorem amendScan_pres (nPhil nForks : Nat) (holders : List Int) (a r : Nat)
    (need : List Int) (M : Nat → Prop)
    (hMneed : ∀ y, M y → need.getD y 0 = 1)
    (hMobt : ∀ y (avail : List Bool), M y →
      (∀ z, M z → avail.getD (specLeftFork nPhil nForks z) false = false) →
      obtainable holders avail a r y (specRightFork nPhil nForks y) = false)
    (hMrel : ∀ (j : Nat) (avail : List Bool), ¬ M j →
      (∀ z, M z → avail.getD (specLeftFork nPhil nForks z) false = false) →
      ∀ z, M z → (releaseAmend nPhil nForks holders a r avail j).getD
        (specLeftFork nPhil nForks z) false = false) :
    ∀ (l : List Nat) (q : List Bool × List Bool),
      (∀ y, M y → q.1.getD y false = false) →
      (∀ z, M z → q.2.getD (specLeftFork nPhil nForks z) false = false) →
      (∀ y, M y → (l.foldl (amendScanStep nPhil nForks holders a r need) q).1.getD y
        false = false) ∧
      (∀ z, M z → (l.foldl (amendScanStep nPhil nForks holders a r need) q).2.getD
        (specLeftFork nPhil nForks z) false = false) ∧
      (l.foldl (amendScanStep nPhil nForks holders a r need) q).1.length = q.1.length := by
  intro l
  induction l with
  | nil => intro q hf ha; exact ⟨hf, ha, rfl⟩
  | cons j js ih =>
    intro q hf ha
    rw [List.foldl_cons]
    obtain ⟨g1, g2, g3⟩ :=
      amendScanStep_pres nPhil nForks holders a r need M hMneed hMobt hMrel j q hf ha
    obtain ⟨k1, k2, k3⟩ := ih (amendScanStep nPhil nForks holders a r need q j) g1 g2
    exact ⟨k1, k2, by rw [k3, g3]⟩

/-- The amended completion loop never answers safe while a nonempty `M` of
mutually blocked agents satisfies the member conditions. -/
theorem amendLoop_no_true (nPhil nForks : Nat) (holders : List Int) (a r : Nat)
    (need : List Int) (M : Nat → Prop) (x0 : Nat) (hx0 : M x0) (hx0lt : x0 < nPhil)
    (hMneed : ∀ y, M y → need.getD y 0 = 1)
    (hMobt : ∀ y (avail : List Bool), M y →
      (∀ z, M z → avail.getD (specLeftFork nPhil nForks z) false = false) →
      obtainable holders avail a r y (specRightFork nPhil nForks y) = false)
    (hMrel : ∀ (j : Nat) (avail : List Bool), ¬ M j →
      (∀ z, M z → avail.getD (specLeftFork nPhil nForks z) false = false) →
      ∀ z, M z → (releaseAmend nPhil nForks holders a r avail j).getD
        (specLeftFork nPhil nForks z) false = false) :
    ∀ (fuel : Nat) (q : List Bool × List Bool),
      (∀ y, M y → q.1.getD y false = false) →
      (∀ z, M z → q.2.getD (specLeftFork nPhil nForks z) false = false) →
      q.1.length = nPhil →
      amendLoop nPhil nForks holders a r need fuel q ≠ some true := by
  intro fuel
  induction fuel with
  | zero =>
    intro q _ _ _ hcon
    rw [show amendLoop nPhil nForks holders a r need 0 q = none from rfl] at hcon
    cases hcon
  | succ fuel ih =>
    intro q hf ha hlen hcon
    rw [show amendLoop nPhil nForks holders a r need (fuel + 1) q =
        (if q.1.all (fun b => b) then some true
         else if (amendScan nPhil nForks holders a r need q).1 == q.1 then some false
         else amendLoop nPhil nForks holders a r need fuel
           (amendScan nPhil nForks holders a r need q)) from rfl] at hcon
    have hall : ¬ (q.1.all (fun b => b) = true) := by
      intro hall
      have hx0f : q.1.getD x0 false = false := hf x0 hx0
      have hx0l : x0 < q.1.length := by omega
      rw [List.getD_eq_getElem _ _ hx0l] at hx0f
      have hmem : q.1.get ⟨x0, hx0l⟩ = true := by
        have := List.all_eq_true.mp hall (q.1.get ⟨x0, hx0l⟩) (List.get_mem _ _ _)
        exact this
      rw [List.get_eq_getElem] at hmem
      rw [hx0f] at hmem
      cases hmem
    rw [if_neg hall] at hcon
    by_cases hsc : ((amendScan nPhil nForks holders a r need q).1 == q.1) = true
    · rw [if_pos hsc] at hcon
      cases hcon
    · rw [if_neg hsc] at hcon
      obtain ⟨g1, g2, g3⟩ := amendScan_pres nPhil nForks holders a r need M hMneed hMobt hMrel
        (List.range nPhil) q hf ha
      have hlen2 : (amendScan nPhil nForks holders a r need q).1.length = nPhil := by
        have heq : (amendScan nPhil nForks holders a r need q).1.length =
            ((List.range nPhil).foldl (amendScanStep nPhil nForks holders a r need) q).1.length :=
          rfl
        rw [heq, g3]
        exact hlen
      exact ih (amendScan nPhil nForks holders a r need q) g1 g2 hlen2 hcon

/-- The initial joint state satisfies the protocol invariant. -/
theorem inv_init (nPhil nForks : Nat) : Inv (initCState nPhil nForks) := by
  have hph : ∀ i, (initCState nPhil nForks).phases.getD i .thinking = .thinking := by
    intro i
    show (List.replicate nPhil Phase.thinking).getD i .thinking = .thinking
    by_cases hi : i < nPhil
    · exact getD_replicate _ _ _ _ hi
    · exact List.getD_eq_default _ _ (by simpa using (by omega : nPhil ≤ i))
  refine ⟨by simp [initCState], by simp [initCState], ?_, ?_, ?_⟩
  · intro f
    left
    show (List.replicate nForks (-1 : Int)).getD f (-1) = -1
    by_cases hf : f < nForks
    · exact getD_replicate _ _ _ _ hf
    · exact List.getD_eq_default _ _ (by simpa using (by omega : nForks ≤ f))
  · intro i f hc
    exfalso
    rcases hc with ⟨h1, _⟩ | ⟨h1, _⟩ | ⟨h1, _⟩ <;> rw [hph i] at h1 <;> cases h1
  · intro i hc
    exfalso
    rcases hc with h1 | h1 <;> rw [hph i] at h1 <;> cases h1

/-- The initial joint state has no wait-for cycle: nobody is hungry, so the
wait-for map is empty. -/
theorem nocycle_init (nPhil nForks : Nat) :
    ¬ HasCycleF (initCState nPhil nForks).nPhil (wfOf (initCState nPhil nForks)) := by
  rintro ⟨x, hx, k, hk, hcyc⟩
  obtain ⟨v, hv, _⟩ := orbitF_out _ x k hcyc x (orbitF_start _ x k)
  have hnone : wfOf (initCState nPhil nForks) x = none := by
    apply wfOf_none_of_not_hungry
    have hph : phOf (initCState nPhil nForks) x = .thinking := by
      show (List.replicate nPhil Phase.thinking).getD x .thinking = .thinking
      by_cases hi : x < nPhil
      · exact getD_replicate _ _ _ _ hi
      · exact List.getD_eq_default _ _ (by simpa using (by omega : nPhil ≤ x))
    rw [hph]
    decide
  rw [hnone] at hv
  cases hv

/-- After an atomic BANKER grant of agent `a`'s left fork `r` on pre-grant
holders `holdS`, the post-grant state `t` has no wait-for cycle: any cycle
would consist of agents each holding exactly its own left fork and waiting
on the next member's left fork, and the completion simulation inside
`is_safe_state` — which approved the grant on `holdS` — could then never
have finished any cycle member, contradicting its safe answer. -/
theorem banker_no_cycle (t : CState) (hInvT : Inv t) (a : Nat) (holdS : List Int) (r : Nat)
    (hrel : t.holders = holdS.set r (Int.ofNat a))
    (hfree : holdS.getD r (-1) = -1)
    (hrN : r < t.nForks)
    (hra : r = threadLeft t.nPhil t.nForks a)
    (hsafe : is_safe_state t.nPhil t.nForks holdS a r = true) :
    ¬ HasCycleF t.nPhil (wfOf t) := by
  rintro ⟨x, hxlt, k, hklt, hiter⟩
  have hlenT : t.holders.length = t.nForks := hInvT.2.1
  have hlenS : holdS.length = t.nForks := by
    rw [hrel, List.length_set] at hlenT
    exact hlenT
  have hrS : r < holdS.length := by omega
  have hS_ne : ∀ f, f ≠ r → holdS.getD f (-1) = holderOf t f := by
    intro f hf
    unfold holderOf
    rw [hrel]
    exact (getD_set_ne _ _ _ _ _ (fun hc => hf hc.symm)).symm
  have hTr : holderOf t r = Int.ofNat a := by
    unfold holderOf
    rw [hrel]
    exact getD_set_self _ _ _ _ hrS
  have hshape : ∀ y, OrbitF (wfOf t) x k y →
      y < t.nPhil ∧ t.phases.getD y .thinking = Phase.holdL ∧
        holderOf t (lf t y) = Int.ofNat y := by
    intro y hy
    obtain ⟨v, hv, hvMem⟩ := orbitF_out (wfOf t) x k hiter y hy
    obtain ⟨hylt, hhun, _⟩ := wfOf_some_inv t y v hv
    obtain ⟨z, hzMem, hz⟩ := orbitF_in (wfOf t) x k hiter y hy
    obtain ⟨_, _, fork, hne, hvz, _⟩ := wfOf_some_inv t z y hz
    obtain ⟨w, hwlt, hwe, hwo⟩ := holder_owner t hInvT fork hne
    have hyw : y = w := by
      rw [hwe] at hvz
      simpa using hvz
    subst hyw
    have hphy : t.phases.getD y .thinking = Phase.holdL := by
      unfold ownsF at hwo
      unfold phOf at hhun
      rcases hwo with ⟨h1, _⟩ | ⟨h1, _⟩ | ⟨h1, _⟩
      · exact h1
      · rw [h1] at hhun
        exact absurd hhun (by decide)
      · rw [h1] at hhun
        exact absurd hhun (by decide)
    exact ⟨hylt, hphy, hInvT.2.2.2.1 y (lf t y) (Or.inl ⟨hphy, rfl⟩)⟩
  have hlf_lt : ∀ y, OrbitF (wfOf t) x k y → lf t y < t.nForks := by
    intro y hy
    obtain ⟨_, _, hhold⟩ := hshape y hy
    rcases Nat.lt_or_ge (lf t y) t.holders.length with h | h
    · omega
    · exfalso
      unfold holderOf at hhold
      rw [List.getD_eq_default _ _ h] at hhold
      simp only [Int.ofNat_eq_natCast] at hhold
      omega
  have hlf_r : ∀ y, OrbitF (wfOf t) x k y → lf t y = r → y = a := by
    intro y hy hc
    obtain ⟨_, _, hhold⟩ := hshape y hy
    rw [hc, hTr] at hhold
    have := Int.ofNat.inj hhold
    omega
  have hright : ∀ y, OrbitF (wfOf t) x k y →
      ∃ z, OrbitF (wfOf t) x k z ∧ rf t y = lf t z ∧
        holderOf t (rf t y) ≠ Int.ofNat y := by
    intro y hy
    obtain ⟨v, hv, hvMem⟩ := orbitF_out (wfOf t) x k hiter y hy
    obtain ⟨hylt, hhun, fork, hne, hvv, hcase⟩ := wfOf_some_inv t y v hv
    obtain ⟨_, _, hhold⟩ := hshape y hy
    rcases hcase with ⟨hfk, hcond⟩ | ⟨hfk, _, hcond⟩
    · exfalso
      rw [hfk] at hcond
      exact hcond hhold
    · obtain ⟨w, hwlt, hwe, hwo⟩ := holder_owner t hInvT fork hne
      have hvw : v = w := by
        rw [hwe] at hvv
        simpa using hvv
      subst hvw
      obtain ⟨_, hphv, _⟩ := hshape v hvMem
      have hfw : fork = lf t v := by
        unfold ownsF at hwo
        rcases hwo with ⟨_, h2⟩ | ⟨h1, _⟩ | ⟨h1, _⟩
        · exact h2
        · rw [h1] at hphv
          exact absurd hphv (by decide)
        · rw [h1] at hphv
          exact absurd hphv (by decide)
      refine ⟨v, hvMem, ?_, ?_⟩
      · rw [← hfk]
        exact hfw
      · rw [← hfk]
        exact hcond
  have hcount : ∀ y, OrbitF (wfOf t) x k y →
      (List.range t.nForks).countP (fun f => holdS.getD f (-1) == Int.ofNat y) =
        (if y = a then 0 else 1) := by
    intro y hy
    obtain ⟨hylt, hphy, hhold⟩ := hshape y hy
    have huniq : ∀ f ∈ List.range t.nForks,
        (holdS.getD f (-1) == Int.ofNat y) = true → f = lf t y := by
      intro f hf hp
      rw [beq_iff_eq] at hp
      have hfr : f ≠ r := by
        intro hc
        rw [hc, hfree] at hp
        simp only [Int.ofNat_eq_natCast] at hp
        omega
      rw [hS_ne f hfr] at hp
      have hne2 : holderOf t f ≠ -1 := by
        rw [hp]
        simp only [Int.ofNat_eq_natCast]
        omega
      obtain ⟨w, hwlt, hwe, hwo⟩ := holder_owner t hInvT f hne2
      have hwy : w = y := by
        rw [hwe] at hp
        exact Int.ofNat.inj hp
      rw [hwy] at hwo
      unfold ownsF at hwo
      rcases hwo with ⟨_, h2⟩ | ⟨h1, _⟩ | ⟨h1, _⟩
      · exact h2
      · rw [h1] at hphy
        exact absurd hphy (by decide)
      · rw [h1] at hphy
        exact absurd hphy (by decide)
    have hle := countP_le_one_of_unique (fun f => holdS.getD f (-1) == Int.ofNat y) (lf t y)
      (List.range t.nForks) (List.nodup_range _) huniq
    by_cases hya : y = a
    · rw [if_pos hya]
      rw [List.countP_eq_zero]
      intro f hf hp
      have hfl := huniq f hf hp
      rw [hfl] at hp
      have hlr : lf t y = r := by
        rw [hya, hra]
        rfl
      rw [hlr, hfree] at hp
      rw [beq_iff_eq] at hp
      simp only [Int.ofNat_eq_natCast] at hp
      omega
    · rw [if_neg hya]
      have hlfne : lf t y ≠ r := fun hc => hya (hlf_r y hy hc)
      have hp : (holdS.getD (lf t y) (-1) == Int.ofNat y) = true := by
        rw [hS_ne _ hlfne, hhold]
        simp
      have hpos : 0 < (List.range t.nForks).countP
          (fun f => holdS.getD f (-1) == Int.ofNat y) := by
        rw [List.countP_pos_iff]
        exact ⟨lf t y, List.mem_range.mpr (hlf_lt y hy), hp⟩
      omega
  have hMneed : ∀ y, OrbitF (wfOf t) x k y →
      ((needSpec t.nPhil t.nForks holdS).set a
        ((needSpec t.nPhil t.nForks holdS).getD a 0 - 1)).getD y 0 = 1 := by
    intro y hy
    obtain ⟨hylt, _, _⟩ := hshape y hy
    by_cases hya : y = a
    · have hlen : (needSpec t.nPhil t.nForks holdS).length = t.nPhil := by
        simp [needSpec]
      rw [hya]
      rw [getD_set_self _ _ _ _ (by rw [hlen]; omega)]
      rw [needSpec_getD _ _ _ a (by omega)]
      have hc := hcount y hy
      rw [if_pos hya] at hc
      rw [hya] at hc
      rw [hc]
      decide
    · rw [getD_set_ne _ _ _ _ _ (fun hc => hya hc.symm)]
      rw [needSpec_getD _ _ _ y hylt]
      have hc := hcount y hy
      rw [if_neg hya] at hc
      rw [hc]
      decide
  have hMobt : ∀ (y : Nat) (avail : List Bool), OrbitF (wfOf t) x k y →
      (∀ z, OrbitF (wfOf t) x k z →
        avail.getD (specLeftFork t.nPhil t.nForks z) false = false) →
      obtainable holdS avail a r y (specRightFork t.nPhil t.nForks y) = false := by
    intro y avail hy hav
    obtain ⟨z, hzMem, hrfz, hzne⟩ := hright y hy
    have hsr : specRightFork t.nPhil t.nForks y = rf t y := rfl
    unfold obtainable
    rw [hsr]
    have hA : (holdS.getD (rf t y) (-1) == Int.ofNat y) = false := by
      rw [beq_eq_false_iff_ne]
      by_cases hc : rf t y = r
      · rw [hc, hfree]
        simp only [Int.ofNat_eq_natCast]
        omega
      · rw [hS_ne _ hc]
        exact hzne
    have hB : avail.getD (rf t y) false = false := by
      rw [hrfz]
      exact hav z hzMem
    have hC : (y == a && (rf t y == r)) = false := by
      by_cases hya : y = a
      · have hc : rf t y ≠ r := by
          intro hc
          rw [hc, hTr] at hzne
          exact hzne (by rw [hya])
        have hc2 : ((rf t y : Nat) == r) = false := by
          rw [beq_eq_false_iff_ne]
          exact hc
        rw [hc2, Bool.and_false]
      · have hc2 : ((y : Nat) == a) = false := by
          rw [beq_eq_false_iff_ne]
          exact hya
        rw [hc2, Bool.false_and]
    rw [hA, hB, hC]
    rfl
  have hMrel : ∀ (j : Nat) (avail : List Bool), ¬ OrbitF (wfOf t) x k j →
      (∀ z, OrbitF (wfOf t) x k z →
        avail.getD (specLeftFork t.nPhil t.nForks z) false = false) →
      ∀ z, OrbitF (wfOf t) x k z →
        (releaseAmend t.nPhil t.nForks holdS a r avail j).getD
          (specLeftFork t.nPhil t.nForks z) false = false := by
    intro j avail hj hav z hz
    obtain ⟨_, _, hholdz⟩ := hshape z hz
    have hnotj : ∀ f, holdS.getD f (-1) = Int.ofNat j → f ≠ lf t z := by
      intro f hp hc
      rw [hc] at hp
      by_cases hlr : lf t z = r
      · rw [hlr, hfree] at hp
        simp only [Int.ofNat_eq_natCast] at hp
        omega
      · rw [hS_ne _ hlr, hholdz] at hp
        have hzj := Int.ofNat.inj hp
        exact hj (hzj ▸ hz)
    have h1 : holdS.getD (safetyLeft t.nPhil t.nForks j) (-1) = Int.ofNat j →
        safetyLeft t.nPhil t.nForks j ≠ lf t z := fun hp => hnotj _ hp
    have h2 : holdS.getD (safetyRight t.nPhil t.nForks j) (-1) = Int.ofNat j →
        safetyRight t.nPhil t.nForks j ≠ lf t z := fun hp => hnotj _ hp
    have h3 : j = a → safetyLeft t.nPhil t.nForks j = r →
        safetyLeft t.nPhil t.nForks j ≠ lf t z := by
      intro hja hpr hc
      have hzr : lf t z = r := by rw [← hc, hpr]
      have hza : z = a := hlf_r z hz hzr
      apply hj
      rw [hja, ← hza]
      exact hz
    have h4 : j = a → safetyRight t.nPhil t.nForks j = r →
        safetyRight t.nPhil t.nForks j ≠ lf t z := by
      intro hja hpr hc
      have hzr : lf t z = r := by rw [← hc, hpr]
      have hza : z = a := hlf_r z hz hzr
      apply hj
      rw [hja, ← hza]
      exact hz
    have hL : specLeftFork t.nPhil t.nForks z = lf t z := rfl
    rw [hL]
    rw [releaseAmend_getD t.nPhil t.nForks holdS a r avail j (lf t z) h1 h2 h3 h4]
    exact hav z hz
  have hgeS : ∀ h ∈ holdS, -1 ≤ h := by
    intro h hmem
    obtain ⟨f, hf, hfe⟩ := List.mem_iff_getElem.mp hmem
    have hgd : holdS.getD f (-1) = h := by
      rw [List.getD_eq_getElem _ _ hf]
      exact hfe
    by_cases hfr : f = r
    · rw [hfr, hfree] at hgd
      omega
    · rw [hS_ne f hfr] at hgd
      have h1 : -1 ≤ holderOf t f := by
        rcases hInvT.2.2.1 f with hh | ⟨w, _, hh, _⟩
        · rw [hh]
        · rw [hh]
          simp only [Int.ofNat_eq_natCast]
          omega
      omega
  unfold is_safe_state at hsafe
  rw [is_safe_stateO_eq_amendedO t.nPhil t.nForks holdS a r hgeS] at hsafe
  unfold is_safe_amendedO at hsafe
  have hguard : (availSpec t.nForks holdS).getD r false = true := by
    rw [availSpec_getD, if_pos hrN, hfree]
    decide
  have hng : ¬ ((availSpec t.nForks holdS).getD r false = false) := by
    rw [hguard]
    intro hc
    cases hc
  rw [if_neg hng] at hsafe
  have hsome : ∀ (o : Option Bool), o.getD false = true → o = some true := by
    intro o ho
    cases o with
    | none => simp at ho
    | some b =>
      simp at ho
      rw [ho]
  have hloopT := hsome _ hsafe
  have hfin0 : ∀ y, OrbitF (wfOf t) x k y →
      (List.replicate t.nPhil false : List Bool).getD y false = false := by
    intro y hy
    obtain ⟨hylt, _, _⟩ := hshape y hy
    exact getD_replicate _ _ _ _ hylt
  have hav0 : ∀ z, OrbitF (wfOf t) x k z →
      ((availSpec t.nForks holdS).set r false).getD (specLeftFork t.nPhil t.nForks z)
        false = false := by
    intro z hz
    obtain ⟨_, _, hholdz⟩ := hshape z hz
    have hL : specLeftFork t.nPhil t.nForks z = lf t z := rfl
    rw [hL]
    by_cases hc : lf t z = r
    · rw [hc]
      have hrA : r < (availSpec t.nForks holdS).length := by
        simp only [availSpec, List.length_map, List.length_range]
        exact hrN
      exact getD_set_self _ _ _ _ hrA
    · rw [getD_set_ne _ _ _ _ _ (fun hcc => hc hcc.symm)]
      rw [availSpec_getD, if_pos (hlf_lt z hz)]
      rw [hS_ne _ hc, hholdz]
      rw [beq_eq_false_iff_ne]
      simp only [Int.ofNat_eq_natCast]
      omega
  exact amendLoop_no_true t.nPhil t.nForks holdS a r
    ((needSpec t.nPhil t.nForks holdS).set a
      ((needSpec t.nPhil t.nForks holdS).getD a 0 - 1))
    (OrbitF (wfOf t) x k) x (orbitF_start _ x k) hxlt hMneed hMobt hMrel
    (t.nPhil + 1)
    (List.replicate t.nPhil false, (availSpec t.nForks holdS).set r false)
    hfin0 hav0 (by simp) hloopT

/-- An atomic BANKER-approved left-fork acquisition never creates a
wait-for cycle. -/
theorem nocycle_acquireLeft (s : CState) (i : Nat) (hInv : Inv s)
    (hph : s.phases.getD i .thinking = .hungryIdle)
    (hrp : rpOf s i (lf s i) = true) :
    ¬ HasCycleF s.nPhil (wfOf ⟨s.nPhil, s.nForks, s.phases.set i .holdL,
      s.holders.set (lf s i) (Int.ofNat i), s.waits⟩) := by
  have hInvT := inv_acquireLeft s i hInv hph hrp
  unfold rpOf at hrp
  have hfree : s.holders.getD (lf s i) (-1) = -1 :=
    rp_true_free s.nPhil s.nForks s.holders (statesOf s) s.waits .banker i (lf s i) hrp
  have hsafe : is_safe_state s.nPhil s.nForks s.holders i (lf s i) = true :=
    rp_true_safe s.nPhil s.nForks s.holders (statesOf s) s.waits i (lf s i) hrp
  have hrlt : lf s i < s.nForks := is_safe_r_lt _ _ _ _ _ hsafe
  exact banker_no_cycle
    ⟨s.nPhil, s.nForks, s.phases.set i .holdL, s.holders.set (lf s i) (Int.ofNat i), s.waits⟩
    hInvT i s.holders (lf s i) rfl hfree hrlt rfl hsafe

/-- C4 (amended): under the acquisition protocol with strategy BANKER
continuously from start in which a permission grant and the corresponding
lock acquisition form one indivisible step — the no-stale-grant restriction
of the code's protocol — `detect_deadlock` returns false in every reachable
state.  (Under the code's actual racy protocol, where `request_permission`
and `try_lock` are separate steps, a transient wait-for cycle is reachable
and `detect_deadlock` can return true; see the counterexample.) -/
theorem banker_atomic_no_deadlock (nPhil nForks : Nat) (s : CState)
    (hreach : ReachA nPhil nForks s) : ddOf s = false := by
  have key : Inv s ∧ ¬ HasCycleF s.nPhil (wfOf s) := by
    induction hreach with
    | init => exact ⟨inv_init nPhil nForks, nocycle_init nPhil nForks⟩
    | step s0 t0 hr hstep ih =>
      refine ⟨inv_step s0 t0 hstep ih.1, ?_⟩
      cases hstep with
      | toHungry i hiN hph => exact nocycle_toHungry s0 i ih.1 hph ih.2
      | acquireLeft i hph hrp => exact nocycle_acquireLeft s0 i ih.1 hph hrp
      | acquireLeftDenied i hph hrp => exact ih.2
      | acquireRight i hph hrp => exact nocycle_acquireRight s0 i ih.1 hph hrp ih.2
      | acquireRightDenied i hph hrp => exact nocycle_acquireRightDenied s0 i ih.1 hph ih.2
      | releaseRight i hph => exact nocycle_releaseRight s0 i ih.1 hph ih.2
      | releaseLeft i hph => exact nocycle_releaseLeft s0 i ih.1 hph ih.2
  cases hb : ddOf s with
  | false => rfl
  | true =>
    exfalso
    unfold ddOf at hb
    have hcyc := (detect_deadlock_iff_cycle s.nPhil s.nForks (statesOf s) s.holders).mp hb
    exact key.2 hcyc

/-- Witness for the amended C4: the no-deadlock invariant evaluated on the
atomically reachable two-agent state in which agent 0 holds its left fork
and agent 1 is hungry. -/
theorem banker_atomic_no_deadlock_witness :
    ddOf ⟨2, 2, [Phase.holdL, Phase.hungryIdle], [0, -1], [0, 0]⟩ = false :=
  banker_atomic_no_deadlock 2 2 _
    (ReachA.step 2 2 _ _
      (ReachA.step 2 2 _ _
        (ReachA.step 2 2 _ _ (ReachA.init 2 2)
          (AStep.toHungry _ 0 (by decide) (by decide)))
        (AStep.toHungry _ 1 (by decide) (by decide)))
      (AStep.acquireLeft _ 0 (by decide) (by decide)))

end DiningSim
